import Mathlib

/-!
Verification of the gosh process-supervision library.

This file gives a shallow embedding, in Lean, of the parts of the gosh
source that the specification talks about: the string-map utilities
(mergeMaps and friends), the child-message decoder (recvWriter.Write),
the Cmd waiting primitives (awaitReady, awaitVars), the Cmd start state
machine, the Shell cleanup routine and its called-once guard, the
in-memory blocking pipe, and the invocation codec.  Go maps are modelled
as association lists with unique keys (Go maps are unordered, so any
canonical update that replaces an existing key in place models m[k] = v);
blocking waits are modelled as functions of the finite trace of
condition-variable signals (returning none when the wait never ends);
panics and returned errors are modelled with Except.
-/

set_option autoImplicit false

namespace Gosh

/-! ## Go maps (map[string]string), modelled as association lists -/

/-- A Go map[string]string, modelled as an association list.  Maps built by
the library always have unique keys (NodupKeys below). -/
abbrev VarMap := List (String × String)

/-- Go map read m[k]: the first entry with the given key. -/
def lookupVar : VarMap → String → Option String
  | [], _ => none
  | (k, v) :: rest, key => if k = key then some v else lookupVar rest key

/-- Go map write m[k] = v: replace the entry if the key is present, otherwise
append a new entry. -/
def insertVar : VarMap → String → String → VarMap
  | [], k, v => [(k, v)]
  | (a, b) :: rest, k, v =>
    if a = k then (k, v) :: rest else (a, b) :: insertVar rest k v

/-- The keys of a map, in entry order. -/
def keysOf (m : VarMap) : List String := m.map Prod.fst

/-- The unique-keys invariant that Go maps satisfy by construction. -/
def NodupKeys (m : VarMap) : Prop := (keysOf m).Nodup

instance (m : VarMap) : Decidable (NodupKeys m) :=
  inferInstanceAs (Decidable (keysOf m).Nodup)

/-- The inner loop of mergeMaps: for k, v := range m { res[k] = v }. -/
def insertAll (acc : VarMap) (es : List (String × String)) : VarMap :=
  es.foldl (fun r kv => insertVar r kv.1 kv.2) acc

/-- mergeMaps from the source: merges the given maps into a new map,
preferring values from later maps over those from earlier maps. -/
def mergeMaps (maps : List VarMap) : VarMap :=
  maps.foldl insertAll []

@[simp] theorem lookupVar_nil (key : String) : lookupVar [] key = none := rfl

theorem lookupVar_cons (k v : String) (rest : VarMap) (key : String) :
    lookupVar ((k, v) :: rest) key =
      if k = key then some v else lookupVar rest key := rfl

@[simp] theorem keysOf_nil : keysOf [] = [] := rfl

@[simp] theorem keysOf_cons (k v : String) (rest : VarMap) :
    keysOf ((k, v) :: rest) = k :: keysOf rest := rfl

theorem lookupVar_append (l1 l2 : VarMap) (key : String) :
    lookupVar (l1 ++ l2) key =
      match lookupVar l1 key with
      | some v => some v
      | none => lookupVar l2 key := by
  induction l1 with
  | nil => simp
  | cons p rest ih =>
    obtain ⟨k, v⟩ := p
    by_cases h : k = key <;> simp [lookupVar_cons, h, ih]

theorem lookupVar_isSome_iff_mem (m : VarMap) (key : String) :
    (lookupVar m key).isSome ↔ key ∈ keysOf m := by
  induction m with
  | nil => simp
  | cons p rest ih =>
    obtain ⟨k, v⟩ := p
    rw [lookupVar_cons, keysOf_cons]
    by_cases h : k = key
    · simp [h]
    · rw [if_neg h, List.mem_cons]
      constructor
      · intro hs
        exact Or.inr (ih.mp hs)
      · intro hc
        rcases hc with hc | hc
        · exact absurd hc.symm h
        · exact ih.mpr hc

theorem lookupVar_eq_none_iff_not_mem (m : VarMap) (key : String) :
    lookupVar m key = none ↔ key ∉ keysOf m := by
  rw [← lookupVar_isSome_iff_mem, Option.isSome_iff_ne_none]
  tauto

/-- Go map write followed by read. -/
theorem lookupVar_insertVar (m : VarMap) (k v key : String) :
    lookupVar (insertVar m k v) key =
      if key = k then some v else lookupVar m key := by
  induction m with
  | nil =>
    by_cases h : key = k
    · simp [insertVar, lookupVar_cons, h]
    · have h2 : ¬ k = key := fun hh => h hh.symm
      simp [insertVar, lookupVar_cons, h, h2]
  | cons p rest ih =>
    obtain ⟨a, b⟩ := p
    by_cases ha : a = k
    · rw [insertVar, if_pos ha]
      by_cases hk : key = k
      · simp [lookupVar_cons, hk]
      · have hk2 : ¬ k = key := fun hh => hk hh.symm
        have ha2 : ¬ a = key := by rw [ha]; exact hk2
        simp [lookupVar_cons, hk, hk2, ha2]
    · rw [insertVar, if_neg ha]
      by_cases hak : a = key
      · have hkk : ¬ key = k := by
          intro hh
          exact ha (hak.trans hh)
        simp [lookupVar_cons, hak, hkk]
      · simp [lookupVar_cons, hak, ih]

theorem keysOf_insertVar (m : VarMap) (k v : String) :
    keysOf (insertVar m k v) =
      if k ∈ keysOf m then keysOf m else keysOf m ++ [k] := by
  induction m with
  | nil => simp [insertVar]
  | cons p rest ih =>
    obtain ⟨a, b⟩ := p
    by_cases ha : a = k
    · rw [insertVar, if_pos ha]
      simp [ha]
    · rw [insertVar, if_neg ha]
      have hne : ¬ k = a := fun hh => ha hh.symm
      by_cases hmem : k ∈ keysOf rest <;> simp [hmem, hne, ih]

theorem nodupKeys_insertVar (m : VarMap) (k v : String) (h : NodupKeys m) :
    NodupKeys (insertVar m k v) := by
  unfold NodupKeys at h ⊢
  rw [keysOf_insertVar]
  by_cases hmem : k ∈ keysOf m
  · rw [if_pos hmem]; exact h
  · rw [if_neg hmem]
    simp [List.nodup_append, h, hmem]

@[simp] theorem insertAll_nil (acc : VarMap) : insertAll acc [] = acc := rfl

theorem insertAll_cons (acc : VarMap) (k v : String) (es : List (String × String)) :
    insertAll acc ((k, v) :: es) = insertAll (insertVar acc k v) es := rfl

theorem nodupKeys_insertAll (es : List (String × String)) (acc : VarMap)
    (h : NodupKeys acc) : NodupKeys (insertAll acc es) := by
  induction es generalizing acc with
  | nil => simpa using h
  | cons p rest ih =>
    obtain ⟨k, v⟩ := p
    rw [insertAll_cons]
    exact ih _ (nodupKeys_insertVar _ _ _ h)

theorem lookupVar_insertAll_isSome (es : List (String × String)) (acc : VarMap)
    (key : String) :
    (lookupVar (insertAll acc es) key).isSome ↔
      (lookupVar acc key).isSome ∨ key ∈ keysOf es := by
  induction es generalizing acc with
  | nil => simp
  | cons p rest ih =>
    obtain ⟨k, v⟩ := p
    rw [insertAll_cons, ih, keysOf_cons]
    by_cases hk : key = k
    · simp [lookupVar_insertVar, hk]
    · simp [lookupVar_insertVar, hk]

theorem lookupVar_insertAll (es : List (String × String)) (acc : VarMap)
    (key : String) (h : NodupKeys es) :
    lookupVar (insertAll acc es) key =
      match lookupVar es key with
      | some v => some v
      | none => lookupVar acc key := by
  induction es generalizing acc with
  | nil => simp
  | cons p rest ih =>
    obtain ⟨k, v⟩ := p
    rw [NodupKeys, keysOf_cons, List.nodup_cons] at h
    rw [insertAll_cons, ih _ h.2, lookupVar_cons]
    by_cases hk : k = key
    · have hnone : lookupVar rest key = none := by
        rw [lookupVar_eq_none_iff_not_mem, ← hk]
        exact h.1
      rw [if_pos hk, hnone, lookupVar_insertVar, if_pos hk.symm]
    · rw [if_neg hk]
      cases hrk : lookupVar rest key
      · rw [lookupVar_insertVar, if_neg (fun hh => hk hh.symm)]
      · rfl

theorem insertVar_of_not_mem (m : VarMap) (k v : String) (h : k ∉ keysOf m) :
    insertVar m k v = m ++ [(k, v)] := by
  induction m with
  | nil => simp [insertVar]
  | cons p rest ih =>
    obtain ⟨a, b⟩ := p
    rw [keysOf_cons, List.mem_cons] at h
    push_neg at h
    rw [insertVar, if_neg (fun hh => h.1 hh.symm), ih h.2]
    simp

theorem insertAll_eq_append (es : List (String × String)) (acc : VarMap)
    (h : NodupKeys es) (hd : ∀ key ∈ keysOf es, key ∉ keysOf acc) :
    insertAll acc es = acc ++ es := by
  induction es generalizing acc with
  | nil => simp
  | cons p rest ih =>
    obtain ⟨k, v⟩ := p
    rw [NodupKeys, keysOf_cons, List.nodup_cons] at h
    have hk : k ∉ keysOf acc := hd k (by simp)
    rw [insertAll_cons, insertVar_of_not_mem acc k v hk,
      ih _ h.2 ?_, List.append_assoc]
    · simp
    · intro key hkey
      rw [keysOf, List.map_append]
      simp only [List.mem_append]
      push_neg
      constructor
      · exact hd key (by rw [keysOf_cons]; exact List.mem_cons_of_mem _ hkey)
      · simp only [keysOf, List.map_cons, List.map_nil, List.mem_singleton]
        intro hh
        exact h.1 (hh ▸ hkey)

theorem mergeMaps_pair (v m : VarMap) :
    mergeMaps [v, m] = insertAll (insertAll [] v) m := rfl

theorem insertAll_nil_left (v : VarMap) (h : NodupKeys v) : insertAll [] v = v := by
  simpa using insertAll_eq_append v [] h (by simp)

/-- Merging a reported map into the current map: the later map wins on keys it
mentions and every other key keeps its old value. -/
theorem lookupVar_mergeMaps_pair (v m : VarMap) (key : String)
    (hv : NodupKeys v) (hm : NodupKeys m) :
    lookupVar (mergeMaps [v, m]) key =
      match lookupVar m key with
      | some x => some x
      | none => lookupVar v key := by
  rw [mergeMaps_pair, insertAll_nil_left v hv, lookupVar_insertAll m v key hm]

theorem nodupKeys_mergeMaps_pair (v m : VarMap) : NodupKeys (mergeMaps [v, m]) := by
  rw [mergeMaps_pair]
  exact nodupKeys_insertAll _ _ (nodupKeys_insertAll _ _ (by simp [NodupKeys]))

theorem lookupVar_mergeMaps_pair_isSome (v m : VarMap) (key : String) :
    (lookupVar (mergeMaps [v, m]) key).isSome ↔
      (lookupVar v key).isSome ∨ key ∈ keysOf m := by
  rw [mergeMaps_pair, lookupVar_insertAll_isSome, lookupVar_insertAll_isSome]
  simp [lookupVar_isSome_iff_mem]

/-! ## Errors -/

/-- The errors and panics that show up in the modelled code paths. -/
inductive GoErr
  | alreadyCalledStart
  | alreadyCalledWait
  | notStarted
  | alreadyCalledCleanup
  | eof
  | writeOnClosedPipe
  | unknownFunction (name : String)
  | failure (s : String)
  deriving DecidableEq

/-! ## Child messaging protocol (child.go and recvWriter.Write) -/

/-- The sentinel that marks a protocol line on the child's stdout
(msgPrefix = "#! " in child.go). -/
def sentinel : List Char := ['#', '!', ' ']

def typeReady : String := "ready"

def typeVars : String := "vars"

/-- A decoded protocol message (the msg struct from child.go). -/
structure Msg where
  type : String
  vars : VarMap
  deriving DecidableEq

/-- The message-visible state of a Cmd: its readiness flag and its variable
map. -/
structure CmdMsgState where
  ready : Bool
  vars : VarMap
  deriving DecidableEq

def initCmdMsgState : CmdMsgState := { ready := false, vars := [] }

/-- The switch on m.Type in recvWriter.Write: a ready message sets the
readiness flag (and signals condReady), a vars message merges the report into
the variable map (and signals condVars), anything else is an error. -/
def dispatchMsg (c : CmdMsgState) (m : Msg) : Except String CmdMsgState :=
  if m.type = typeReady then .ok { c with ready := true }
  else if m.type = typeVars then .ok { c with vars := mergeMaps [c.vars, m.vars] }
  else .error ("unknown message type: " ++ m.type)

/-- Decoder state of a recvWriter (buffer plus the two per-line flags),
together with the Cmd state it updates. -/
structure RecvState where
  cmd : CmdMsgState
  buf : List Char
  readSentinel : Bool
  skipLine : Bool

def initRecvState (c : CmdMsgState) : RecvState :=
  { cmd := c, buf := [], readSentinel := false, skipLine := false }

/-- One byte of recvWriter.Write.  The parse argument stands for
encoding/json's Unmarshal (a Go standard-library call). -/
def stepByte (parse : List Char → Except String Msg) (w : RecvState)
    (b : Char) : Except String RecvState :=
  if b = '\n' then
    if w.readSentinel && !w.skipLine then
      match parse w.buf with
      | .error e => .error e
      | .ok m =>
        match dispatchMsg w.cmd m with
        | .error e => .error e
        | .ok c =>
          .ok { cmd := c, buf := [], readSentinel := false, skipLine := false }
    else .ok { w with buf := [], readSentinel := false, skipLine := false }
  else if w.skipLine then .ok w
  else
    let buf := w.buf ++ [b]
    if ¬w.readSentinel ∧ buf.length = sentinel.length then
      .ok { w with buf := [], readSentinel := true,
                   skipLine := decide (buf ≠ sentinel) }
    else .ok { w with buf := buf }

/-- recvWriter.Write over a whole byte sequence. -/
def writeBytes (parse : List Char → Except String Msg) (w : RecvState) :
    List Char → Except String RecvState
  | [] => .ok w
  | b :: rest =>
    match stepByte parse w b with
    | .error e => .error e
    | .ok w2 => writeBytes parse w2 rest

/-! ## Await primitives (Cmd.awaitReady, Cmd.awaitVars) -/

/-- Events visible to a Cmd while it runs: protocol messages decoded from its
stdout, and the exit of the underlying process.  Dispatching a ready message
signals condReady and dispatching a vars message signals condVars; the process
exiting signals neither condition variable (Cmd.wait only calls exec.Cmd.Wait
and then closes the closeAfterWait resources). -/
inductive CmdEvent
  | ready
  | varsMsg (m : VarMap)
  | exit
  deriving DecidableEq

/-- Effect of one event on the message-visible Cmd state. -/
def applyEvent (c : CmdMsgState) : CmdEvent → CmdMsgState
  | .ready => { c with ready := true }
  | .varsMsg m => { c with vars := mergeMaps [c.vars, m] }
  | .exit => c

/-- Cmd.awaitReady as a function of the current state and the finite trace of
later events: the caller re-checks the flag whenever condReady is signaled;
none means the wait never ends. -/
def awaitReadyLoop (c : CmdMsgState) : List CmdEvent → Option Unit
  | [] => if c.ready then some () else none
  | e :: rest =>
    if c.ready then some () else awaitReadyLoop (applyEvent c e) rest

/-- Cmd.awaitReady with its not-started / already-waited guards
(part_010 lines 310-323). -/
def awaitReadyCmd (calledStart calledWait : Bool) (c : CmdMsgState)
    (evts : List CmdEvent) : Except GoErr (Option Unit) :=
  if calledStart = false then .error .notStarted
  else if calledWait then .error .alreadyCalledWait
  else .ok (awaitReadyLoop c evts)

/-- The set of requested keys (wantKeys in the source), as a list without
duplicates. -/
def addWantKey (acc : List String) (k : String) : List String :=
  if k ∈ acc then acc else acc ++ [k]

def mkWantKeys (keys : List String) : List String :=
  keys.foldl addWantKey []

/-- updateRes from Cmd.awaitVars: copy every currently reported requested key
into res. -/
def updateRes (want : List String) (vars res : VarMap) : VarMap :=
  vars.foldl (fun r kv => if kv.1 ∈ want then insertVar r kv.1 kv.2 else r) res

/-- The wait loop of Cmd.awaitVars: while res is missing some requested key,
wait for the next condVars signal and run updateRes on the map the signal
published.  The states list holds the values of the Cmd variable map at the
successive condVars signals; none means the wait never ends. -/
def awaitVarsLoop (want : List String) (res : VarMap) :
    List VarMap → Option VarMap
  | [] => if want.length ≤ res.length then some res else none
  | v :: rest =>
    if want.length ≤ res.length then some res
    else awaitVarsLoop want (updateRes want v res) rest

/-- Cmd.awaitVars with its guards (part_010 lines 325-352). -/
def awaitVarsCmd (calledStart calledWait : Bool) (keys : List String)
    (v0 : VarMap) (states : List VarMap) : Except GoErr (Option VarMap) :=
  if calledStart = false then .error .notStarted
  else if calledWait then .error .alreadyCalledWait
  else .ok (awaitVarsLoop (mkWantKeys keys) (updateRes (mkWantKeys keys) v0 []) states)

/-- The successive values of the Cmd variable map at each condVars signal
caused by the given events. -/
def varsSignalStates (c : CmdMsgState) : List CmdEvent → List VarMap
  | [] => []
  | e :: rest =>
    match e with
    | .varsMsg _ => (applyEvent c e).vars :: varsSignalStates (applyEvent c e) rest
    | _ => varsSignalStates (applyEvent c e) rest

/-- The Cmd variable map after a sequence of vars messages. -/
def varsAfter (v : VarMap) (msgs : List VarMap) : VarMap :=
  msgs.foldl (fun vv m => mergeMaps [vv, m]) v

/-- The value of the Cmd variable map at each condVars signal, for a child
that sends the given sequence of vars messages. -/
def varsStates (v : VarMap) : List VarMap → List VarMap
  | [] => []
  | m :: rest => mergeMaps [v, m] :: varsStates (mergeMaps [v, m]) rest

/-! ## Correctness of the await primitives -/

@[simp] theorem varsAfter_nil (v : VarMap) : varsAfter v [] = v := rfl

theorem varsAfter_cons (v m : VarMap) (msgs : List VarMap) :
    varsAfter v (m :: msgs) = varsAfter (mergeMaps [v, m]) msgs := rfl

@[simp] theorem varsStates_nil (v : VarMap) : varsStates v [] = [] := rfl

theorem varsStates_cons (v m : VarMap) (msgs : List VarMap) :
    varsStates v (m :: msgs) =
      mergeMaps [v, m] :: varsStates (mergeMaps [v, m]) msgs := rfl

theorem mem_foldl_addWantKey (keys acc : List String) (x : String) :
    x ∈ keys.foldl addWantKey acc ↔ x ∈ acc ∨ x ∈ keys := by
  induction keys generalizing acc with
  | nil => simp
  | cons k rest ih =>
    rw [List.foldl_cons, ih]
    unfold addWantKey
    by_cases hk : k ∈ acc
    · rw [if_pos hk]
      constructor
      · rintro (h | h)
        · exact Or.inl h
        · exact Or.inr (List.mem_cons_of_mem _ h)
      · rintro (h | h)
        · exact Or.inl h
        · rcases List.mem_cons.mp h with h | h
          · exact Or.inl (h ▸ hk)
          · exact Or.inr h
    · rw [if_neg hk]
      simp only [List.mem_append, List.mem_singleton, List.mem_cons]
      tauto

theorem nodup_foldl_addWantKey (keys acc : List String) (h : acc.Nodup) :
    (keys.foldl addWantKey acc).Nodup := by
  induction keys generalizing acc with
  | nil => simpa using h
  | cons k rest ih =>
    rw [List.foldl_cons]
    apply ih
    unfold addWantKey
    by_cases hk : k ∈ acc
    · rwa [if_pos hk]
    · rw [if_neg hk]
      simp [List.nodup_append, h, hk]

theorem mem_mkWantKeys (keys : List String) (x : String) :
    x ∈ mkWantKeys keys ↔ x ∈ keys := by
  rw [mkWantKeys, mem_foldl_addWantKey]
  simp

theorem nodup_mkWantKeys (keys : List String) : (mkWantKeys keys).Nodup :=
  nodup_foldl_addWantKey keys [] List.nodup_nil

@[simp] theorem updateRes_nil (want : List String) (res : VarMap) :
    updateRes want [] res = res := rfl

theorem updateRes_cons (want : List String) (k w : String)
    (rest : List (String × String)) (res : VarMap) :
    updateRes want ((k, w) :: rest) res =
      updateRes want rest (if k ∈ want then insertVar res k w else res) := rfl

theorem nodupKeys_updateRes (want : List String) (v res : VarMap)
    (h : NodupKeys res) : NodupKeys (updateRes want v res) := by
  induction v generalizing res with
  | nil => simpa using h
  | cons p rest ih =>
    obtain ⟨k, w⟩ := p
    rw [updateRes_cons]
    by_cases hk : k ∈ want
    · rw [if_pos hk]
      exact ih _ (nodupKeys_insertVar _ _ _ h)
    · rw [if_neg hk]
      exact ih _ h

theorem keysOf_updateRes_sub (want : List String) (v res : VarMap)
    (h : ∀ x ∈ keysOf res, x ∈ want) :
    ∀ x ∈ keysOf (updateRes want v res), x ∈ want := by
  induction v generalizing res with
  | nil => simpa using h
  | cons p rest ih =>
    obtain ⟨k, w⟩ := p
    rw [updateRes_cons]
    by_cases hk : k ∈ want
    · rw [if_pos hk]
      apply ih
      intro x hx
      rw [keysOf_insertVar] at hx
      by_cases hmem : k ∈ keysOf res
      · rw [if_pos hmem] at hx
        exact h x hx
      · rw [if_neg hmem, List.mem_append, List.mem_singleton] at hx
        rcases hx with hx | hx
        · exact h x hx
        · exact hx ▸ hk
    · rw [if_neg hk]
      exact ih _ h

theorem lookupVar_updateRes (want : List String) (v res : VarMap) (key : String)
    (hv : NodupKeys v) :
    lookupVar (updateRes want v res) key =
      if key ∈ want ∧ (lookupVar v key).isSome then lookupVar v key
      else lookupVar res key := by
  induction v generalizing res with
  | nil => simp
  | cons p rest ih =>
    obtain ⟨k, w⟩ := p
    rw [NodupKeys, keysOf_cons, List.nodup_cons] at hv
    rw [updateRes_cons, ih _ hv.2]
    by_cases hkey : k = key
    · subst hkey
      have hnone : lookupVar rest k = none :=
        (lookupVar_eq_none_iff_not_mem rest k).mpr hv.1
      rw [lookupVar_cons, if_pos rfl, hnone]
      by_cases hk : k ∈ want
      · rw [if_pos hk, if_neg (by simp [hnone]), if_pos (by simp [hk]),
          lookupVar_insertVar, if_pos rfl]
      · rw [if_neg hk, if_neg (by simp [hnone]), if_neg (by simp [hk])]
    · rw [lookupVar_cons, if_neg hkey]
      have hres : lookupVar (if k ∈ want then insertVar res k w else res) key =
          lookupVar res key := by
        by_cases hk : k ∈ want
        · rw [if_pos hk, lookupVar_insertVar, if_neg (fun hh => hkey hh.symm)]
        · rw [if_neg hk]
      rw [hres]

/-- The exit condition of the awaitVars wait loop: res holds every requested
key exactly when every requested key is currently reported. -/
theorem awaitVars_cond_iff (want : List String) (v res : VarMap)
    (hw : want.Nodup) (hrn : NodupKeys res)
    (hsub : ∀ x ∈ keysOf res, x ∈ want)
    (hres : ∀ key, lookupVar res key =
      if key ∈ want then lookupVar v key else none) :
    want.length ≤ res.length ↔
      ∀ key ∈ want, (lookupVar v key).isSome := by
  have hlen : res.length = (keysOf res).length := by
    rw [keysOf, List.length_map]
  constructor
  · intro hle key hkey
    by_contra hnone
    have hvnone : lookupVar v key = none := by
      cases hv : lookupVar v key
      · rfl
      · exact absurd (by simp [hv]) hnone
    have hkeyout : key ∉ keysOf res := by
      rw [← lookupVar_eq_none_iff_not_mem, hres key, if_pos hkey, hvnone]
    have hsub2 : keysOf res ⊆ want.erase key := by
      intro x hx
      have hxw : x ∈ want := hsub x hx
      have hxne : x ≠ key := fun hh => hkeyout (hh ▸ hx)
      exact (List.mem_erase_of_ne hxne).mpr hxw
    have hsp := (List.subperm_of_subset hrn hsub2).length_le
    have herase : (want.erase key).length + 1 = want.length :=
      List.length_erase_add_one hkey
    omega
  · intro hall
    have hsub2 : want ⊆ keysOf res := by
      intro key hkey
      rw [← lookupVar_isSome_iff_mem, hres key, if_pos hkey]
      exact hall key hkey
    have := (List.subperm_of_subset hw hsub2).length_le
    omega

/-- The wait loop of awaitVars, run against the trace of variable-map states
produced by a sequence of vars messages: if it returns, it returns at a point
where every requested key is reported, with exactly the requested keys and
their current values; if the trace ends without every requested key reported,
it is still blocked. -/
theorem awaitVarsLoop_spec (want : List String) (hw : want.Nodup)
    (msgs : List VarMap) (v res : VarMap)
    (hv : NodupKeys v) (hrn : NodupKeys res)
    (hsub : ∀ x ∈ keysOf res, x ∈ want)
    (hres : ∀ key, lookupVar res key =
      if key ∈ want then lookupVar v key else none) :
    (∀ r, awaitVarsLoop want res (varsStates v msgs) = some r →
      ∃ i ≤ msgs.length,
        (∀ key ∈ want, (lookupVar (varsAfter v (msgs.take i)) key).isSome) ∧
        (∀ key, lookupVar r key =
          if key ∈ want then lookupVar (varsAfter v (msgs.take i)) key
          else none)) ∧
    (awaitVarsLoop want res (varsStates v msgs) = none →
      ∃ key ∈ want, lookupVar (varsAfter v msgs) key = none) := by
  induction msgs generalizing v res with
  | nil =>
    rw [varsStates_nil]
    unfold awaitVarsLoop
    by_cases hc : want.length ≤ res.length
    · rw [if_pos hc]
      constructor
      · intro r hr
        injection hr with hr
        subst hr
        refine ⟨0, Nat.zero_le _, ?_, ?_⟩
        · rw [List.take_zero, varsAfter_nil]
          exact (awaitVars_cond_iff want v res hw hrn hsub hres).mp hc
        · rw [List.take_zero, varsAfter_nil]
          exact hres
      · intro hr
        exact absurd hr (by simp)
    · rw [if_neg hc]
      constructor
      · intro r hr
        exact absurd hr (by simp)
      · intro _
        rw [awaitVars_cond_iff want v res hw hrn hsub hres] at hc
        push_neg at hc
        obtain ⟨key, hkey, hnone⟩ := hc
        refine ⟨key, hkey, ?_⟩
        rw [varsAfter_nil]
        cases hlv : lookupVar v key
        · rfl
        · exact absurd (by simp [hlv]) hnone
  | cons m rest ih =>
    rw [varsStates_cons]
    unfold awaitVarsLoop
    by_cases hc : want.length ≤ res.length
    · rw [if_pos hc]
      constructor
      · intro r hr
        injection hr with hr
        subst hr
        refine ⟨0, Nat.zero_le _, ?_, ?_⟩
        · rw [List.take_zero, varsAfter_nil]
          exact (awaitVars_cond_iff want v res hw hrn hsub hres).mp hc
        · rw [List.take_zero, varsAfter_nil]
          exact hres
      · intro hr
        exact absurd hr (by simp)
    · rw [if_neg hc]
      have hv2 : NodupKeys (mergeMaps [v, m]) := nodupKeys_mergeMaps_pair v m
      have hrn2 : NodupKeys (updateRes want (mergeMaps [v, m]) res) :=
        nodupKeys_updateRes _ _ _ hrn
      have hsub2 : ∀ x ∈ keysOf (updateRes want (mergeMaps [v, m]) res), x ∈ want :=
        keysOf_updateRes_sub _ _ _ hsub
      have hres2 : ∀ key, lookupVar (updateRes want (mergeMaps [v, m]) res) key =
          if key ∈ want then lookupVar (mergeMaps [v, m]) key else none := by
        intro key
        rw [lookupVar_updateRes _ _ _ _ hv2]
        by_cases hkw : key ∈ want
        · by_cases hks : (lookupVar (mergeMaps [v, m]) key).isSome
          · rw [if_pos ⟨hkw, hks⟩, if_pos hkw]
          · rw [if_neg (by tauto), hres key, if_pos hkw]
            have hmn : lookupVar (mergeMaps [v, m]) key = none := by
              cases hh : lookupVar (mergeMaps [v, m]) key
              · rfl
              · exact absurd (by simp [hh]) hks
            rw [hmn, if_pos hkw]
            cases hvk : lookupVar v key
            · rfl
            · exfalso
              apply hks
              rw [lookupVar_mergeMaps_pair_isSome]
              exact Or.inl (by simp [hvk])
        · rw [if_neg (by tauto), hres key, if_neg hkw, if_neg hkw]
      obtain ⟨ihsome, ihnone⟩ := ih (mergeMaps [v, m])
        (updateRes want (mergeMaps [v, m]) res) hv2 hrn2 hsub2 hres2
      constructor
      · intro r hr
        obtain ⟨i, hi, hall, hlook⟩ := ihsome r hr
        refine ⟨i + 1, by simpa using Nat.succ_le_succ hi, ?_, ?_⟩
        · rw [List.take_succ_cons, varsAfter_cons]
          exact hall
        · rw [List.take_succ_cons, varsAfter_cons]
          exact hlook
      · intro hr
        obtain ⟨key, hkey, hnone⟩ := ihnone hr
        refine ⟨key, hkey, ?_⟩
        rw [varsAfter_cons]
        exact hnone

/-- C1: For every started command and every requested key set k1..kn,
AwaitVars(k1,...,kn) unblocks only once every requested key has been reported
at least once by the child, and the returned map contains exactly the
requested keys with their current values: keys reported by the child but not
requested are retained in the command's variable map (varsAfter) but absent
from the returned map. -/
theorem awaitVars_exact (keys : List String) (msgs : List VarMap) :
    (∀ res, awaitVarsCmd true false keys [] (varsStates [] msgs) = .ok (some res) →
      ∃ i ≤ msgs.length,
        (∀ key ∈ keys, (lookupVar (varsAfter [] (msgs.take i)) key).isSome) ∧
        (∀ key, lookupVar res key =
          if key ∈ keys then lookupVar (varsAfter [] (msgs.take i)) key
          else none)) ∧
    (awaitVarsCmd true false keys [] (varsStates [] msgs) = .ok none →
      ∃ key ∈ keys, lookupVar (varsAfter [] msgs) key = none) := by
  have hbase := awaitVarsLoop_spec (mkWantKeys keys) (nodup_mkWantKeys keys)
    msgs [] [] (by simp [NodupKeys]) (by simp [NodupKeys]) (by simp)
    (by intro key; by_cases h : key ∈ mkWantKeys keys <;> simp [h])
  constructor
  · intro res h
    have hloop : awaitVarsLoop (mkWantKeys keys) [] (varsStates [] msgs) =
        some res := by
      simpa [awaitVarsCmd, updateRes_nil] using h
    obtain ⟨i, hi, hall, hlook⟩ := hbase.1 res hloop
    refine ⟨i, hi, ?_, ?_⟩
    · intro key hkey
      exact hall key ((mem_mkWantKeys keys key).mpr hkey)
    · intro key
      rw [hlook key]
      by_cases hkw : key ∈ keys
      · rw [if_pos ((mem_mkWantKeys keys key).mpr hkw), if_pos hkw]
      · rw [if_neg (fun hh => hkw ((mem_mkWantKeys keys key).mp hh)), if_neg hkw]
  · intro h
    have hloop : awaitVarsLoop (mkWantKeys keys) [] (varsStates [] msgs) =
        none := by
      simpa [awaitVarsCmd, updateRes_nil] using h
    obtain ⟨key, hkey, hnone⟩ := hbase.2 hloop
    exact ⟨key, (mem_mkWantKeys keys key).mp hkey, hnone⟩

/-! ## The decoder only reacts to complete sentinel lines -/

theorem stepByte_ne_newline (parse : List Char → Except String Msg)
    (w : RecvState) (b : Char) (hb : b ≠ '\n') :
    ∃ w2, stepByte parse w b = .ok w2 ∧ w2.cmd = w.cmd := by
  unfold stepByte
  rw [if_neg hb]
  by_cases hs : w.skipLine
  · rw [if_pos hs]
    exact ⟨w, rfl, rfl⟩
  · rw [if_neg hs]
    dsimp only
    by_cases hc : ¬w.readSentinel ∧ (w.buf ++ [b]).length = sentinel.length
    · rw [if_pos hc]
      exact ⟨_, rfl, rfl⟩
    · rw [if_neg hc]
      exact ⟨_, rfl, rfl⟩

theorem writeBytes_cons (parse : List Char → Except String Msg)
    (w : RecvState) (b : Char) (rest : List Char) :
    writeBytes parse w (b :: rest) =
      match stepByte parse w b with
      | .error e => .error e
      | .ok w2 => writeBytes parse w2 rest := rfl

theorem writeBytes_no_newline (parse : List Char → Except String Msg)
    (w : RecvState) (l : List Char) (h : ∀ b ∈ l, b ≠ '\n') :
    ∃ w2, writeBytes parse w l = .ok w2 ∧ w2.cmd = w.cmd := by
  induction l generalizing w with
  | nil => exact ⟨w, rfl, rfl⟩
  | cons b rest ih =>
    obtain ⟨w1, hw1, hcmd1⟩ := stepByte_ne_newline parse w b (h b (by simp))
    obtain ⟨w2, hw2, hcmd2⟩ := ih w1 (fun x hx => h x (List.mem_cons_of_mem _ hx))
    refine ⟨w2, ?_, hcmd2.trans hcmd1⟩
    rw [writeBytes_cons, hw1]
    exact hw2

theorem writeBytes_skipLine (parse : List Char → Except String Msg)
    (w : RecvState) (l : List Char) (h : ∀ b ∈ l, b ≠ '\n')
    (hs : w.skipLine = true) :
    writeBytes parse w l = .ok w := by
  induction l with
  | nil => rfl
  | cons b rest ih =>
    have hb : b ≠ '\n' := h b (by simp)
    have hstep : stepByte parse w b = .ok w := by
      unfold stepByte
      rw [if_neg hb, if_pos hs]
    rw [writeBytes_cons, hstep]
    exact ih (fun x hx => h x (List.mem_cons_of_mem _ hx))

theorem writeBytes_append (parse : List Char → Except String Msg)
    (w : RecvState) (xs ys : List Char) :
    writeBytes parse w (xs ++ ys) =
      match writeBytes parse w xs with
      | .error e => .error e
      | .ok w2 => writeBytes parse w2 ys := by
  induction xs generalizing w with
  | nil => rfl
  | cons b rest ih =>
    rw [List.cons_append, writeBytes_cons, writeBytes_cons]
    cases hb : stepByte parse w b
    · rfl
    · exact ih _

/-- A non-newline byte on a line whose sentinel check is not yet due is just
buffered. -/
theorem stepByte_accum (parse : List Char → Except String Msg)
    (w : RecvState) (b : Char) (hb : b ≠ '\n') (hs : w.skipLine = false)
    (hc : ¬(¬w.readSentinel ∧ (w.buf ++ [b]).length = sentinel.length)) :
    stepByte parse w b = .ok { w with buf := w.buf ++ [b] } := by
  unfold stepByte
  rw [if_neg hb, if_neg (by rw [hs]; exact Bool.false_ne_true)]
  dsimp only
  rw [if_neg hc]

/-- The third byte of a line triggers the sentinel check: the buffer is
consumed and skipLine records whether the check failed. -/
theorem stepByte_check (parse : List Char → Except String Msg)
    (w : RecvState) (b : Char) (hb : b ≠ '\n') (hs : w.skipLine = false)
    (hr : w.readSentinel = false)
    (hlen : (w.buf ++ [b]).length = sentinel.length) :
    stepByte parse w b =
      .ok { w with buf := [], readSentinel := true,
                   skipLine := decide (w.buf ++ [b] ≠ sentinel) } := by
  unfold stepByte
  rw [if_neg hb, if_neg (by rw [hs]; exact Bool.false_ne_true)]
  dsimp only
  rw [if_pos (by rw [hr]; exact ⟨by simp, hlen⟩)]

/-- A newline with no successful sentinel in hand just resets the per-line
decoder state. -/
theorem stepByte_newline_reset (parse : List Char → Except String Msg)
    (w : RecvState) (hcond : (w.readSentinel && !w.skipLine) = false) :
    stepByte parse w '\n' =
      .ok { w with buf := [], readSentinel := false, skipLine := false } := by
  unfold stepByte
  rw [if_pos rfl, if_neg (by rw [hcond]; exact Bool.false_ne_true)]

/-- Processing one complete line that does not start with the sentinel leaves
the command state untouched and puts the decoder back in its fresh-line
state. -/
theorem writeBytes_plain_line (parse : List Char → Except String Msg)
    (c : CmdMsgState) (l : List Char)
    (hnl : ∀ b ∈ l, b ≠ '\n') (hpre : ¬ sentinel <+: l) :
    writeBytes parse (initRecvState c) (l ++ ['\n']) = .ok (initRecvState c) := by
  match l with
  | [] =>
    show writeBytes parse (initRecvState c) ['\n'] = .ok (initRecvState c)
    rw [writeBytes_cons, stepByte_newline_reset parse (initRecvState c) rfl]
    rfl
  | [a] =>
    have ha : a ≠ '\n' := hnl a (by simp)
    show writeBytes parse (initRecvState c) (a :: ['\n']) = .ok (initRecvState c)
    rw [writeBytes_cons, stepByte_accum parse (initRecvState c) a ha rfl
      (by simp [initRecvState, sentinel])]
    show writeBytes parse ⟨c, [a], false, false⟩ ['\n'] = .ok (initRecvState c)
    rw [writeBytes_cons,
      stepByte_newline_reset parse ⟨c, [a], false, false⟩ rfl]
    rfl
  | [a, b] =>
    have ha : a ≠ '\n' := hnl a (by simp)
    have hb : b ≠ '\n' := hnl b (by simp)
    show writeBytes parse (initRecvState c) (a :: b :: ['\n']) =
      .ok (initRecvState c)
    rw [writeBytes_cons, stepByte_accum parse (initRecvState c) a ha rfl
      (by simp [initRecvState, sentinel])]
    show writeBytes parse ⟨c, [a], false, false⟩ (b :: ['\n']) =
      .ok (initRecvState c)
    rw [writeBytes_cons, stepByte_accum parse _ b hb rfl (by simp [sentinel])]
    show writeBytes parse ⟨c, [a, b], false, false⟩ ['\n'] =
      .ok (initRecvState c)
    rw [writeBytes_cons,
      stepByte_newline_reset parse ⟨c, [a, b], false, false⟩ rfl]
    rfl
  | a :: b :: d :: rest =>
    have ha : a ≠ '\n' := hnl a (by simp)
    have hb : b ≠ '\n' := hnl b (by simp)
    have hd : d ≠ '\n' := hnl d (by simp)
    have hne : [a, b, d] ≠ sentinel := by
      intro hh
      apply hpre
      rw [sentinel] at hh
      injection hh with h1 hh2
      injection hh2 with h2 hh3
      injection hh3 with h3
      rw [sentinel, h1, h2, h3]
      exact ⟨rest, rfl⟩
    have hdec : decide ([a, b] ++ [d] ≠ sentinel) = true := by
      rw [decide_eq_true_iff]
      intro hh
      exact hne (by simpa using hh)
    show writeBytes parse (initRecvState c) (a :: b :: d :: (rest ++ ['\n'])) =
      .ok (initRecvState c)
    rw [writeBytes_cons, stepByte_accum parse (initRecvState c) a ha rfl
      (by simp [initRecvState, sentinel])]
    show writeBytes parse ⟨c, [a], false, false⟩ (b :: d :: (rest ++ ['\n'])) =
      .ok (initRecvState c)
    rw [writeBytes_cons, stepByte_accum parse _ b hb rfl (by simp [sentinel])]
    show writeBytes parse ⟨c, [a, b], false, false⟩ (d :: (rest ++ ['\n'])) =
      .ok (initRecvState c)
    rw [writeBytes_cons, stepByte_check parse _ d hd rfl rfl (by simp [sentinel]),
      hdec]
    show writeBytes parse ⟨c, [], true, true⟩ (rest ++ ['\n']) =
      .ok (initRecvState c)
    rw [writeBytes_append, writeBytes_skipLine parse _ rest
      (fun x hx => hnl x (by simp [hx])) rfl]
    show writeBytes parse ⟨c, [], true, true⟩ ['\n'] = .ok (initRecvState c)
    rw [writeBytes_cons, stepByte_newline_reset parse ⟨c, [], true, true⟩ rfl]
    rfl

/-- C9: bytes belonging to output lines that do not begin with the sentinel
"#! " never modify the owning command's readiness flag or variable map: for
any input consisting of complete non-sentinel lines plus an unfinished last
line, the decoder accepts the input and the command state is unchanged. -/
theorem recvWriter_frame (parse : List Char → Except String Msg)
    (c : CmdMsgState) (lns : List (List Char)) (tl : List Char)
    (hl : ∀ l ∈ lns, (∀ b ∈ l, b ≠ '\n') ∧ ¬ sentinel <+: l)
    (ht : ∀ b ∈ tl, b ≠ '\n') :
    ∃ w2, writeBytes parse (initRecvState c)
        ((lns.map (fun l => l ++ ['\n'])).flatten ++ tl) = .ok w2 ∧
      w2.cmd = c := by
  induction lns with
  | nil =>
    simpa using writeBytes_no_newline parse (initRecvState c) tl ht
  | cons l rest ih =>
    obtain ⟨w2, hw2, hcmd⟩ := ih (fun x hx => hl x (List.mem_cons_of_mem _ hx))
    refine ⟨w2, ?_, hcmd⟩
    rw [List.map_cons, List.flatten_cons, List.append_assoc, writeBytes_append,
      writeBytes_plain_line parse c l (hl l (by simp)).1 (hl l (by simp)).2]
    exact hw2

/-! ## No keys, duplicate keys, and the effect of process exit -/

theorem updateRes_nil_want (v res : VarMap) : updateRes [] v res = res := by
  induction v generalizing res with
  | nil => rfl
  | cons p rest ih =>
    obtain ⟨k, w⟩ := p
    rw [updateRes_cons, if_neg (List.not_mem_nil k)]
    exact ih res

theorem awaitVarsLoop_nil_want (res : VarMap) (states : List VarMap) :
    awaitVarsLoop [] res states = some res := by
  cases states <;> simp [awaitVarsLoop]

theorem mkWantKeys_nil : mkWantKeys [] = [] := rfl

/-- C10: AwaitVars called with zero keys on a started command returns
immediately with an empty map, regardless of what the child has reported or
will report; duplicate keys in the request behave as if listed once. -/
theorem awaitVars_no_keys_and_dups :
    (∀ (v0 : VarMap) (states : List VarMap),
      awaitVarsCmd true false [] v0 states = .ok (some [])) ∧
    (∀ (keys : List String) (k : String) (v0 : VarMap) (states : List VarMap),
      k ∈ keys →
      awaitVarsCmd true false (keys ++ [k]) v0 states =
        awaitVarsCmd true false keys v0 states) := by
  constructor
  · intro v0 states
    unfold awaitVarsCmd
    rw [if_neg (by decide), if_neg (by decide), mkWantKeys_nil,
      updateRes_nil_want, awaitVarsLoop_nil_want]
  · intro keys k v0 states hk
    have hmk : mkWantKeys (keys ++ [k]) = mkWantKeys keys := by
      rw [mkWantKeys, mkWantKeys, List.foldl_append]
      show addWantKey (List.foldl addWantKey [] keys) k = _
      rw [addWantKey, if_pos ((mem_foldl_addWantKey keys [] k).mpr (Or.inr hk))]
    unfold awaitVarsCmd
    rw [hmk]

/-- Witness for awaitVars_no_keys_and_dups at concrete inputs. -/
theorem awaitVars_no_keys_and_dups_witness :
    awaitVarsCmd true false [] [("x", "1")] [[("y", "2")]] = .ok (some []) ∧
    awaitVarsCmd true false (["a"] ++ ["a"]) [] [] =
      awaitVarsCmd true false ["a"] [] [] :=
  ⟨awaitVars_no_keys_and_dups.1 [("x", "1")] [[("y", "2")]],
   awaitVars_no_keys_and_dups.2 ["a"] "a" [] [] (by decide)⟩

/-- Witness for awaitVars_exact at concrete inputs: requesting "a" when the
child reports a and b returns exactly the map for "a". -/
theorem awaitVars_exact_witness :
    ∃ i ≤ ([[("a", "1"), ("b", "2")]] : List VarMap).length,
      (∀ key ∈ ["a"],
        (lookupVar (varsAfter [] (List.take i [[("a", "1"), ("b", "2")]])) key).isSome) ∧
      (∀ key, lookupVar [("a", "1")] key =
        if key ∈ ["a"] then
          lookupVar (varsAfter [] (List.take i [[("a", "1"), ("b", "2")]])) key
        else none) :=
  (awaitVars_exact ["a"] [[("a", "1"), ("b", "2")]]).1 [("a", "1")] (by rfl)

theorem applyEvent_ready_eq (c : CmdMsgState) (e : CmdEvent)
    (h : e ≠ CmdEvent.ready) : (applyEvent c e).ready = c.ready := by
  cases e with
  | ready => exact absurd rfl h
  | varsMsg m => rfl
  | exit => rfl

/-- A waiter in awaitReady is never released by a trace that contains no ready
message, no matter what else (vars messages, the process exiting) happens. -/
theorem awaitReadyLoop_none_of_no_ready (c : CmdMsgState) (evts : List CmdEvent)
    (hc : c.ready = false) (h : ∀ e ∈ evts, e ≠ CmdEvent.ready) :
    awaitReadyLoop c evts = none := by
  induction evts generalizing c with
  | nil =>
    rw [awaitReadyLoop, if_neg (by rw [hc]; exact Bool.false_ne_true)]
  | cons e rest ih =>
    rw [awaitReadyLoop, if_neg (by rw [hc]; exact Bool.false_ne_true)]
    exact ih _ ((applyEvent_ready_eq c e (h e (by simp))).trans hc)
      (fun x hx => h x (List.mem_cons_of_mem _ hx))

/-- C3 evaluated on the failing input: the underlying process exits while a
caller is blocked in AwaitReady (resp. AwaitVars for key "k"); the pending
call stays blocked (ok none) instead of being released with an error. -/
theorem await_not_released_on_exit :
    awaitReadyCmd true false initCmdMsgState [CmdEvent.exit] = .ok none ∧
    awaitVarsCmd true false ["k"] []
      (varsSignalStates initCmdMsgState [CmdEvent.exit]) = .ok none := by
  constructor
  · rfl
  · rfl

/-- Dispatching a vars message takes the merge branch of the type switch. -/
theorem dispatchMsg_vars (c : CmdMsgState) (m : VarMap) :
    dispatchMsg c { type := typeVars, vars := m } =
      .ok { c with vars := mergeMaps [c.vars, m] } := by
  unfold dispatchMsg
  rw [show ({ type := typeVars, vars := m } : Msg).type = typeVars from rfl,
    if_neg (show ¬ typeVars = typeReady by decide), if_pos rfl]

/-- C7: each vars message is merged into the command variable map with
last-write-wins semantics per key: a later value for an existing key
overwrites the earlier one, keys not mentioned in the new message keep their
previous values, no reported key is ever lost, and the readiness flag is
untouched. -/
theorem vars_msg_merge (c : CmdMsgState) (m : VarMap)
    (hv : NodupKeys c.vars) (hm : NodupKeys m) :
    ∃ c2, dispatchMsg c { type := typeVars, vars := m } = .ok c2 ∧
      c2.ready = c.ready ∧
      (∀ key, lookupVar c2.vars key =
        match lookupVar m key with
        | some x => some x
        | none => lookupVar c.vars key) ∧
      (∀ key, (lookupVar c2.vars key).isSome ↔
        (lookupVar c.vars key).isSome ∨ key ∈ keysOf m) := by
  refine ⟨{ c with vars := mergeMaps [c.vars, m] }, dispatchMsg_vars c m, rfl,
    ?_, ?_⟩
  · intro key
    exact lookupVar_mergeMaps_pair c.vars m key hv hm
  · intro key
    exact lookupVar_mergeMaps_pair_isSome c.vars m key

/-- Witness for vars_msg_merge at concrete inputs. -/
theorem vars_msg_merge_witness :
    ∃ c2, dispatchMsg ⟨false, [("a", "1")]⟩
        { type := typeVars, vars := [("a", "2"), ("b", "3")] } = .ok c2 ∧
      c2.ready = (⟨false, [("a", "1")]⟩ : CmdMsgState).ready ∧
      (∀ key, lookupVar c2.vars key =
        match lookupVar [("a", "2"), ("b", "3")] key with
        | some x => some x
        | none => lookupVar [("a", "1")] key) ∧
      (∀ key, (lookupVar c2.vars key).isSome ↔
        (lookupVar [("a", "1")] key).isSome ∨
          key ∈ keysOf [("a", "2"), ("b", "3")]) :=
  vars_msg_merge ⟨false, [("a", "1")]⟩ [("a", "2"), ("b", "3")]
    (by decide) (by decide)

/-! ## The blocking pipe (pipe.go) -/

/-- The pipe state: an unbounded byte buffer and the error field that Close
sets (only ever io.EOF). -/
structure GoPipe where
  buf : List Nat
  err : Option GoErr
  deriving DecidableEq

/-- pipe.Close: the first call sets p.err = io.EOF (and signals the condition
variable, waking a blocked reader); later calls find err non-nil and do
nothing.  Close always returns a nil error. -/
def pipeClose (p : GoPipe) : GoPipe :=
  if p.err.isSome then p else { p with err := some .eof }

/-- Outcome of one pipe.Read call. -/
inductive ReadResult
  | readData (bytes : List Nat) (rest : GoPipe)
  | readErr (e : GoErr)
  | blocked
  deriving DecidableEq

/-- pipe.Read with a destination buffer of n bytes: buffered data is drained
first; with an empty buffer a set error is returned; otherwise the caller
blocks on the condition variable. -/
def pipeRead (p : GoPipe) (n : Nat) : ReadResult :=
  if p.buf ≠ [] then .readData (p.buf.take n) { p with buf := p.buf.drop n }
  else
    match p.err with
    | some e => .readErr e
    | none => .blocked

/-- pipe.Write: fails on a closed pipe, otherwise appends to the buffer and
never blocks. -/
def pipeWrite (p : GoPipe) (d : List Nat) : Except GoErr GoPipe :=
  if p.err.isSome then .error .writeOnClosedPipe
  else .ok { p with buf := p.buf ++ d }

/-- C6: Close on the blocking pipe is idempotent: any number of Close calls
is observably equivalent to one (only the first marks the pipe closed, later
calls are no-ops), and after Close every Read drains remaining buffered bytes
first, returns end-of-stream once drained, and never blocks. -/
theorem pipeClose_idempotent :
    (∀ (p : GoPipe) (k : Nat), pipeClose^[k + 1] p = pipeClose p) ∧
    (∀ p : GoPipe, p.err.isSome → pipeClose p = p) ∧
    (∀ p : GoPipe, (pipeClose p).buf = p.buf) ∧
    (∀ (p : GoPipe) (n : Nat), p.buf ≠ [] →
      pipeRead (pipeClose p) n =
        .readData (p.buf.take n)
          { buf := p.buf.drop n, err := (pipeClose p).err }) ∧
    (∀ (p : GoPipe) (n : Nat), p.buf = [] →
      (p.err = none ∨ p.err = some .eof) →
      pipeRead (pipeClose p) n = .readErr .eof) ∧
    (∀ (p : GoPipe) (n : Nat), pipeRead (pipeClose p) n ≠ .blocked) := by
  have hnoop : ∀ p : GoPipe, p.err.isSome → pipeClose p = p := by
    intro p hp
    unfold pipeClose
    rw [if_pos hp]
  have hbuf : ∀ p : GoPipe, (pipeClose p).buf = p.buf := by
    intro p
    unfold pipeClose
    by_cases hp : p.err.isSome
    · rw [if_pos hp]
    · rw [if_neg hp]
  have herr : ∀ p : GoPipe, (pipeClose p).err.isSome := by
    intro p
    unfold pipeClose
    by_cases hp : p.err.isSome
    · rw [if_pos hp]
      exact hp
    · rw [if_neg hp]
      rfl
  have hidem : ∀ p : GoPipe, pipeClose (pipeClose p) = pipeClose p :=
    fun p => hnoop (pipeClose p) (herr p)
  refine ⟨?_, hnoop, hbuf, ?_, ?_, ?_⟩
  · intro p k
    induction k with
    | zero => simp
    | succ k ih =>
      rw [Function.iterate_succ_apply', ih, hidem]
  · intro p n hbne
    unfold pipeRead
    rw [if_pos (by rw [hbuf p]; exact hbne)]
    rw [hbuf p]
  · intro p n hbe hcase
    unfold pipeRead
    rw [if_neg (by rw [hbuf p, hbe]; exact fun hh => hh rfl)]
    have : (pipeClose p).err = some .eof := by
      unfold pipeClose
      rcases hcase with hcase | hcase
      · rw [if_neg (by rw [hcase]; exact Bool.false_ne_true)]
      · rw [if_pos (by rw [hcase]; rfl), hcase]
    rw [this]
  · intro p n
    unfold pipeRead
    by_cases hb : (pipeClose p).buf ≠ []
    · rw [if_pos hb]
      exact fun hh => ReadResult.noConfusion hh
    · rw [if_neg hb]
      have := herr p
      cases he : (pipeClose p).err
      · rw [he] at this
        exact absurd this (by decide)
      · exact fun hh => ReadResult.noConfusion hh

/-- Witness for pipeClose_idempotent at concrete pipes. -/
theorem pipeClose_idempotent_witness :
    pipeClose ⟨[7, 8], some GoErr.eof⟩ = ⟨[7, 8], some GoErr.eof⟩ ∧
    pipeRead (pipeClose ⟨[7, 8], none⟩) 1 =
      .readData [7] { buf := [8], err := (pipeClose ⟨[7, 8], none⟩).err } ∧
    pipeRead (pipeClose ⟨[], none⟩) 3 = .readErr .eof ∧
    pipeClose^[2] ⟨[7], none⟩ = pipeClose ⟨[7], none⟩ :=
  ⟨pipeClose_idempotent.2.1 ⟨[7, 8], some GoErr.eof⟩ (by decide),
   pipeClose_idempotent.2.2.2.1 ⟨[7, 8], none⟩ 1 (by decide),
   pipeClose_idempotent.2.2.2.2.1 ⟨[], none⟩ 3 rfl (Or.inl rfl),
   pipeClose_idempotent.1 ⟨[7], none⟩ 1⟩

/-! ## Cmd.start (part_010 lines 281-306) -/

/-- The slice of Cmd state that the start state machine touches: whether c.c
has been set (Cmd.calledStart reports c.c != nil, and c.c is assigned before
the launch is attempted), the close-after-wait resource list, and which of
those resources have been closed. -/
structure CmdStartState where
  cSet : Bool
  calledWait : Bool
  closeAfterWait : List Nat
  closed : List Nat
  deriving DecidableEq

/-- What the environment does during one start attempt: the outcome of
setting up each of the two multiwriters (with the log-file resources each
registers for close-after-wait) and the outcome of the exec.Cmd.Start
launch. -/
structure StartEnv where
  stdoutSetup : Except GoErr (List Nat)
  stderrSetup : Except GoErr (List Nat)
  launch : Except GoErr Unit

/-- Cmd.start: reject if c.c is already set; otherwise set c.c, build the two
multiwriters (registering log files for close-after-wait), launch the
process, and on launch failure close everything registered for
close-after-wait.  Returns the error and the new state. -/
def cmdStart (env : StartEnv) (c : CmdStartState) :
    Except GoErr Unit × CmdStartState :=
  if c.cSet then (.error .alreadyCalledStart, c)
  else
    let c1 := { c with cSet := true }
    match env.stdoutSetup with
    | .error e => (.error e, c1)
    | .ok l1 =>
      let c2 := { c1 with closeAfterWait := c1.closeAfterWait ++ l1 }
      match env.stderrSetup with
      | .error e => (.error e, c2)
      | .ok l2 =>
        let c3 := { c2 with closeAfterWait := c2.closeAfterWait ++ l2 }
        match env.launch with
        | .ok _ => (.ok (), c3)
        | .error e => (.error e, { c3 with closed := c3.closeAfterWait })

/-- C4: Start succeeds at most once: after any first start attempt
(successful or not) the command is marked started and a second Start fails
with the already-started error while leaving the state alone; when the first
attempt fails at launch, every close-after-wait resource is closed
immediately and the launch error is returned. -/
theorem start_at_most_once (env env2 : StartEnv) (c : CmdStartState)
    (h : c.cSet = false) :
    ((cmdStart env c).2.cSet = true) ∧
    ((cmdStart env2 (cmdStart env c).2).1 = .error .alreadyCalledStart) ∧
    ((cmdStart env2 (cmdStart env c).2).2 = (cmdStart env c).2) ∧
    (∀ l1 l2 e, env.stdoutSetup = .ok l1 → env.stderrSetup = .ok l2 →
      env.launch = .error e →
      (cmdStart env c).1 = .error e ∧
      (cmdStart env c).2.closed = (cmdStart env c).2.closeAfterWait) := by
  have hset : (cmdStart env c).2.cSet = true := by
    unfold cmdStart
    rw [if_neg (by rw [h]; exact Bool.false_ne_true)]
    cases env.stdoutSetup with
    | error e => rfl
    | ok l1 =>
      cases env.stderrSetup with
      | error e => rfl
      | ok l2 =>
        cases env.launch with
        | ok u => rfl
        | error e => rfl
  have hstarted : ∀ (e2 : StartEnv) (s : CmdStartState), s.cSet = true →
      cmdStart e2 s = (.error .alreadyCalledStart, s) := by
    intro e2 s hs
    unfold cmdStart
    rw [if_pos hs]
  have hsecond : cmdStart env2 (cmdStart env c).2 =
      (.error .alreadyCalledStart, (cmdStart env c).2) :=
    hstarted env2 _ hset
  refine ⟨hset, by rw [hsecond], by rw [hsecond], ?_⟩
  intro l1 l2 e h1 h2 h3
  unfold cmdStart
  rw [if_neg (by rw [h]; exact Bool.false_ne_true), h1, h2, h3]
  exact ⟨rfl, rfl⟩

/-- Witness for start_at_most_once: a fresh command whose launch fails. -/
theorem start_at_most_once_witness :
    ((cmdStart ⟨.ok [1], .ok [2], .error (.failure "exec")⟩
        ⟨false, false, [0], []⟩).2.cSet = true) ∧
    ((cmdStart ⟨.ok [], .ok [], .ok ()⟩
        (cmdStart ⟨.ok [1], .ok [2], .error (.failure "exec")⟩
          ⟨false, false, [0], []⟩).2).1 = .error .alreadyCalledStart) ∧
    ((cmdStart ⟨.ok [], .ok [], .ok ()⟩
        (cmdStart ⟨.ok [1], .ok [2], .error (.failure "exec")⟩
          ⟨false, false, [0], []⟩).2).2 =
      (cmdStart ⟨.ok [1], .ok [2], .error (.failure "exec")⟩
        ⟨false, false, [0], []⟩).2) ∧
    (∀ l1 l2 e,
      (⟨.ok [1], .ok [2], .error (.failure "exec")⟩ : StartEnv).stdoutSetup = .ok l1 →
      (⟨.ok [1], .ok [2], .error (.failure "exec")⟩ : StartEnv).stderrSetup = .ok l2 →
      (⟨.ok [1], .ok [2], .error (.failure "exec")⟩ : StartEnv).launch = .error e →
      ((cmdStart ⟨.ok [1], .ok [2], .error (.failure "exec")⟩
          ⟨false, false, [0], []⟩).1 = .error e ∧
        (cmdStart ⟨.ok [1], .ok [2], .error (.failure "exec")⟩
          ⟨false, false, [0], []⟩).2.closed =
          (cmdStart ⟨.ok [1], .ok [2], .error (.failure "exec")⟩
            ⟨false, false, [0], []⟩).2.closeAfterWait)) :=
  start_at_most_once ⟨.ok [1], .ok [2], .error (.failure "exec")⟩
    ⟨.ok [], .ok [], .ok ()⟩ ⟨false, false, [0], []⟩ rfl

/-! ## Shell state, pushd/popd and cleanup (shell.go lines 322-331, 423-429,
562-584, 602-653) -/

/-- The slice of Shell state that the cleanup machinery touches. -/
structure ShellState where
  calledCleanup : Bool
  cmds : List Nat
  tempFiles : List String
  tempDirs : List String
  dirStack : List String
  cleanupFns : List Nat
  deriving DecidableEq

/-- The observable actions the Shell performs, in order. -/
inductive CleanupAction
  | signalInt (pid : Nat)
  | sleepMs (ms : Nat)
  | logDidNotDie (pid : Nat)
  | logEscalation
  | signalKill (pid : Nat)
  | closeTempFile (name : String)
  | removeTempFile (name : String)
  | removeTempDir (name : String)
  | chdir (dir : String)
  | runCleanupFn (id : Nat)
  deriving DecidableEq

/-- Shell.pushd: change into dir and push the old working directory. -/
def shellPushd (cwd dir : String) (sh : ShellState) :
    ShellState × List CleanupAction :=
  ({ sh with dirStack := sh.dirStack ++ [cwd] }, [CleanupAction.chdir dir])

/-- Shell.popd: change back to the top of the directory stack and pop it. -/
def shellPopd (sh : ShellState) :
    Except GoErr (ShellState × List CleanupAction) :=
  if h : sh.dirStack = [] then .error (.failure "dir stack is empty")
  else
    .ok ({ sh with dirStack := sh.dirStack.dropLast },
      [CleanupAction.chdir (sh.dirStack.getLast h)])

/-- Shell.cleanup (shell.go lines 602-653), as the trace of actions it
performs.  The oracle arguments run1, run2, run3 tell which tracked processes
forEachRunningCmd finds still running at each of its three scans. -/
def shellCleanupTrace (run1 run2 run3 : Nat → Bool) (sh : ShellState) :
    List CleanupAction :=
  let r1 := sh.cmds.filter run1
  let phase1 := r1.map CleanupAction.signalInt
  let after1 :=
    if r1.isEmpty then ([], false)
    else
      let r2 := sh.cmds.filter run2
      (CleanupAction.sleepMs 50 :: r2.map CleanupAction.logDidNotDie,
        !r2.isEmpty)
  let phase3 :=
    if after1.2 then
      CleanupAction.sleepMs 1000 :: CleanupAction.logEscalation ::
        (sh.cmds.filter run3).map CleanupAction.signalKill
    else []
  let files := (sh.tempFiles.map (fun n =>
    [CleanupAction.closeTempFile n, CleanupAction.removeTempFile n])).flatten
  let dirs := sh.tempDirs.map CleanupAction.removeTempDir
  let fns := sh.cleanupFns.reverse.map CleanupAction.runCleanupFn
  phase1 ++ after1.1 ++ phase3 ++ files ++ dirs ++ fns

/-- Shell.ok (shell.go lines 423-429): panics once cleanup has run. -/
def shellOk (sh : ShellState) : Except GoErr Unit :=
  if sh.calledCleanup then .error .alreadyCalledCleanup else .ok ()

/-- Shell.Cleanup (shell.go lines 322-331): a second call panics; the first
sets the flag and runs cleanup. -/
def shellCleanupCall (run1 run2 run3 : Nat → Bool) (sh : ShellState) :
    Except GoErr (ShellState × List CleanupAction) :=
  if sh.calledCleanup then .error .alreadyCalledCleanup
  else
    .ok ({ sh with calledCleanup := true }, shellCleanupTrace run1 run2 run3 sh)

/-- The termination-signal handler installed by newShell: runs cleanup only
if it has not run yet (never panics). -/
def signalHandlerCleanup (run1 run2 run3 : Nat → Bool) (sh : ShellState) :
    ShellState × List CleanupAction :=
  if sh.calledCleanup then (sh, [])
  else ({ sh with calledCleanup := true }, shellCleanupTrace run1 run2 run3 sh)

/-- Any Shell or Cmd operation that first goes through sh.ok(). -/
def guardedOp {α : Type} (sh : ShellState) (op : ShellState → α × ShellState) :
    Except GoErr (α × ShellState) :=
  match shellOk sh with
  | .error e => .error e
  | .ok _ => .ok (op sh)

/-- C5: once cleanup has executed (explicitly or via the signal handler), the
Shell accepts no further operation: a second explicit Cleanup panics with the
already-called-cleanup error, and every operation guarded by sh.ok() is
rejected the same way. -/
theorem cleanup_called_once (run1 run2 run3 r1 r2 r3 : Nat → Bool)
    (sh : ShellState) :
    (∀ sh2 tr, shellCleanupCall run1 run2 run3 sh = .ok (sh2, tr) →
      sh2.calledCleanup = true ∧
      shellOk sh2 = .error .alreadyCalledCleanup ∧
      shellCleanupCall r1 r2 r3 sh2 = .error .alreadyCalledCleanup ∧
      (∀ (α : Type) (op : ShellState → α × ShellState),
        guardedOp sh2 op = .error .alreadyCalledCleanup)) ∧
    ((signalHandlerCleanup run1 run2 run3 sh).1.calledCleanup = true ∧
      shellOk (signalHandlerCleanup run1 run2 run3 sh).1 =
        .error .alreadyCalledCleanup ∧
      shellCleanupCall r1 r2 r3 (signalHandlerCleanup run1 run2 run3 sh).1 =
        .error .alreadyCalledCleanup) := by
  have hops : ∀ sh2 : ShellState, sh2.calledCleanup = true →
      shellOk sh2 = .error .alreadyCalledCleanup ∧
      shellCleanupCall r1 r2 r3 sh2 = .error .alreadyCalledCleanup ∧
      (∀ (α : Type) (op : ShellState → α × ShellState),
        guardedOp sh2 op = .error .alreadyCalledCleanup) := by
    intro sh2 h2
    have hok : shellOk sh2 = .error .alreadyCalledCleanup := by
      unfold shellOk
      rw [if_pos h2]
    refine ⟨hok, ?_, ?_⟩
    · unfold shellCleanupCall
      rw [if_pos h2]
    · intro α op
      unfold guardedOp
      rw [hok]
  constructor
  · intro sh2 tr h
    unfold shellCleanupCall at h
    by_cases hflag : sh.calledCleanup
    · rw [if_pos hflag] at h
      exact absurd h (by simp)
    · rw [if_neg hflag] at h
      have hsh2 : sh2 = { sh with calledCleanup := true } := by
        have := congrArg (fun x : Except GoErr (ShellState × List CleanupAction) =>
          match x with
          | .ok p => some p.1
          | .error _ => none) h
        simpa using this.symm
      have h2 : sh2.calledCleanup = true := by rw [hsh2]
      exact ⟨h2, hops sh2 h2⟩
  · have hflag2 : (signalHandlerCleanup run1 run2 run3 sh).1.calledCleanup =
        true := by
      unfold signalHandlerCleanup
      by_cases hflag : sh.calledCleanup
      · rw [if_pos hflag]
        exact hflag
      · rw [if_neg hflag]
    obtain ⟨ha, hb, _⟩ := hops _ hflag2
    exact ⟨hflag2, ha, hb⟩

/-- Witness for cleanup_called_once: explicit cleanup on a fresh shell. -/
theorem cleanup_called_once_witness :
    (⟨true, [], [], [], [], []⟩ : ShellState).calledCleanup = true ∧
    shellOk ⟨true, [], [], [], [], []⟩ = .error .alreadyCalledCleanup ∧
    shellCleanupCall (fun _ => false) (fun _ => false) (fun _ => false)
      ⟨true, [], [], [], [], []⟩ = .error .alreadyCalledCleanup ∧
    (∀ (α : Type) (op : ShellState → α × ShellState),
      guardedOp ⟨true, [], [], [], [], []⟩ op =
        .error .alreadyCalledCleanup) :=
  (cleanup_called_once (fun _ => false) (fun _ => false) (fun _ => false)
      (fun _ => false) (fun _ => false) (fun _ => false)
      ⟨false, [], [], [], [], []⟩).1
    ⟨true, [], [], [], [], []⟩ [] rfl

/-! ## The order of cleanup actions -/

/-- The position of each action in the fixed cleanup order the specification
describes (2 and 4 are the short and long sleeps; 8 would be the
restore-working-directory step). -/
def phaseOf : CleanupAction → Nat
  | .signalInt _ => 1
  | .sleepMs ms => if ms = 50 then 2 else 4
  | .logDidNotDie _ => 3
  | .logEscalation => 5
  | .signalKill _ => 5
  | .closeTempFile _ => 6
  | .removeTempFile _ => 6
  | .removeTempDir _ => 7
  | .chdir _ => 8
  | .runCleanupFn _ => 9

def isChdir : CleanupAction → Bool
  | .chdir _ => true
  | _ => false

def cleanupFnId : CleanupAction → Option Nat
  | .runCleanupFn i => some i
  | _ => none

def removedDirName : CleanupAction → Option String
  | .removeTempDir n => some n
  | _ => none

def closedFileName : CleanupAction → Option String
  | .closeTempFile n => some n
  | _ => none

theorem pairwise_phase_const (l : List CleanupAction) (n : Nat)
    (h : ∀ a ∈ l, phaseOf a = n) :
    l.Pairwise (fun a b => phaseOf a ≤ phaseOf b) := by
  induction l with
  | nil => exact List.Pairwise.nil
  | cons a rest ih =>
    refine List.Pairwise.cons ?_ (ih fun x hx => h x (List.mem_cons_of_mem _ hx))
    intro b hb
    rw [h a (by simp), h b (List.mem_cons_of_mem _ hb)]

theorem pairwise_phase_append (l1 l2 : List CleanupAction) (k : Nat)
    (h1 : l1.Pairwise (fun a b => phaseOf a ≤ phaseOf b))
    (h2 : l2.Pairwise (fun a b => phaseOf a ≤ phaseOf b))
    (b1 : ∀ a ∈ l1, phaseOf a ≤ k) (b2 : ∀ a ∈ l2, k ≤ phaseOf a) :
    (l1 ++ l2).Pairwise (fun a b => phaseOf a ≤ phaseOf b) :=
  List.pairwise_append.mpr
    ⟨h1, h2, fun a ha b hb => le_trans (b1 a ha) (b2 b hb)⟩

theorem filterMap_map_none {α β : Type} (f : CleanupAction → Option β)
    (g : α → CleanupAction) (l : List α) (h : ∀ x, f (g x) = none) :
    (l.map g).filterMap f = [] := by
  induction l with
  | nil => rfl
  | cons x rest ih => simp [h x, ih]

theorem filterMap_map_some {α β : Type} (f : CleanupAction → Option β)
    (g : α → CleanupAction) (e : α → β) (l : List α)
    (h : ∀ x, f (g x) = some (e x)) :
    (l.map g).filterMap f = l.map e := by
  induction l with
  | nil => rfl
  | cons x rest ih => simp [h x, ih]

theorem not_mem_map_chdir {α : Type} (g : α → CleanupAction) (l : List α)
    (h : ∀ x, isChdir (g x) = false) (dir : String) :
    CleanupAction.chdir dir ∉ l.map g := by
  intro hmem
  obtain ⟨x, hx, hgx⟩ := List.mem_map.mp hmem
  have hx2 := h x
  rw [hgx] at hx2
  exact Bool.noConfusion hx2

theorem mem_map_phase {α : Type} (g : α → CleanupAction) (l : List α) (n : Nat)
    (h : ∀ x, phaseOf (g x) = n) : ∀ a ∈ l.map g, phaseOf a = n := by
  intro a ha
  obtain ⟨x, hx, hgx⟩ := List.mem_map.mp ha
  rw [← hgx]
  exact h x

/-- The file-close/remove actions for the given temp files. -/
def tempFileActions (fnames : List String) : List CleanupAction :=
  (fnames.map (fun n =>
    [CleanupAction.closeTempFile n, CleanupAction.removeTempFile n])).flatten

theorem tempFileActions_nil : tempFileActions [] = [] := rfl

theorem tempFileActions_cons (n : String) (rest : List String) :
    tempFileActions (n :: rest) =
      CleanupAction.closeTempFile n :: CleanupAction.removeTempFile n ::
        tempFileActions rest := rfl

theorem tempFileActions_phase (fnames : List String) :
    ∀ a ∈ tempFileActions fnames, phaseOf a = 6 := by
  induction fnames with
  | nil => simp [tempFileActions_nil]
  | cons n rest ih =>
    intro a ha
    rw [tempFileActions_cons] at ha
    rcases List.mem_cons.mp ha with ha | ha
    · rw [ha]; rfl
    · rcases List.mem_cons.mp ha with ha | ha
      · rw [ha]; rfl
      · exact ih a ha

theorem tempFileActions_no_chdir (fnames : List String) (dir : String) :
    CleanupAction.chdir dir ∉ tempFileActions fnames := by
  intro hmem
  have := tempFileActions_phase fnames _ hmem
  simp [phaseOf] at this

theorem tempFileActions_filterMap_closed (fnames : List String) :
    (tempFileActions fnames).filterMap closedFileName = fnames := by
  induction fnames with
  | nil => rfl
  | cons n rest ih =>
    rw [tempFileActions_cons]
    simp [closedFileName, ih]

theorem tempFileActions_filterMap_fn (fnames : List String) :
    (tempFileActions fnames).filterMap cleanupFnId = [] := by
  induction fnames with
  | nil => rfl
  | cons n rest ih =>
    rw [tempFileActions_cons]
    simp [cleanupFnId, ih]

theorem tempFileActions_filterMap_dir (fnames : List String) :
    (tempFileActions fnames).filterMap removedDirName = [] := by
  induction fnames with
  | nil => rfl
  | cons n rest ih =>
    rw [tempFileActions_cons]
    simp [removedDirName, ih]

theorem cleanup_tail_props (pre : List CleanupAction)
    (fnames dnames : List String) (ids : List Nat)
    (hpair : pre.Pairwise (fun a b => phaseOf a ≤ phaseOf b))
    (hb : ∀ a ∈ pre, phaseOf a ≤ 5)
    (hnc : ∀ dir, CleanupAction.chdir dir ∉ pre)
    (hfm1 : pre.filterMap cleanupFnId = [])
    (hfm2 : pre.filterMap removedDirName = [])
    (hfm3 : pre.filterMap closedFileName = []) :
    ((pre ++ (tempFileActions fnames ++
        (dnames.map CleanupAction.removeTempDir ++
          (ids.reverse.map CleanupAction.runCleanupFn)))).Pairwise
      (fun a b => phaseOf a ≤ phaseOf b)) ∧
    (∀ dir, CleanupAction.chdir dir ∉ pre ++ (tempFileActions fnames ++
        (dnames.map CleanupAction.removeTempDir ++
          (ids.reverse.map CleanupAction.runCleanupFn)))) ∧
    ((pre ++ (tempFileActions fnames ++
        (dnames.map CleanupAction.removeTempDir ++
          (ids.reverse.map CleanupAction.runCleanupFn)))).filterMap
      cleanupFnId = ids.reverse) ∧
    ((pre ++ (tempFileActions fnames ++
        (dnames.map CleanupAction.removeTempDir ++
          (ids.reverse.map CleanupAction.runCleanupFn)))).filterMap
      removedDirName = dnames) ∧
    ((pre ++ (tempFileActions fnames ++
        (dnames.map CleanupAction.removeTempDir ++
          (ids.reverse.map CleanupAction.runCleanupFn)))).filterMap
      closedFileName = fnames) := by
  have hdphase : ∀ a ∈ dnames.map CleanupAction.removeTempDir, phaseOf a = 7 :=
    mem_map_phase _ _ 7 (fun x => rfl)
  have hfnphase : ∀ a ∈ ids.reverse.map CleanupAction.runCleanupFn,
      phaseOf a = 9 :=
    mem_map_phase _ _ 9 (fun x => rfl)
  have hfphase := tempFileActions_phase fnames
  have pfns : (ids.reverse.map CleanupAction.runCleanupFn).Pairwise
      (fun a b => phaseOf a ≤ phaseOf b) :=
    pairwise_phase_const _ 9 hfnphase
  have pdirs : (dnames.map CleanupAction.removeTempDir).Pairwise
      (fun a b => phaseOf a ≤ phaseOf b) :=
    pairwise_phase_const _ 7 hdphase
  have pfiles : (tempFileActions fnames).Pairwise
      (fun a b => phaseOf a ≤ phaseOf b) :=
    pairwise_phase_const _ 6 hfphase
  have pdf : ((dnames.map CleanupAction.removeTempDir) ++
      (ids.reverse.map CleanupAction.runCleanupFn)).Pairwise
      (fun a b => phaseOf a ≤ phaseOf b) :=
    pairwise_phase_append _ _ 7 pdirs pfns
      (fun a ha => le_of_eq (hdphase a ha))
      (fun a ha => by rw [hfnphase a ha]; omega)
  have hdf_ge : ∀ a ∈ (dnames.map CleanupAction.removeTempDir) ++
      (ids.reverse.map CleanupAction.runCleanupFn), 6 ≤ phaseOf a := by
    intro a ha
    rcases List.mem_append.mp ha with ha | ha
    · rw [hdphase a ha]; omega
    · rw [hfnphase a ha]; omega
  have ptail : ((tempFileActions fnames) ++
      ((dnames.map CleanupAction.removeTempDir) ++
        (ids.reverse.map CleanupAction.runCleanupFn))).Pairwise
      (fun a b => phaseOf a ≤ phaseOf b) :=
    pairwise_phase_append _ _ 6 pfiles pdf
      (fun a ha => le_of_eq (hfphase a ha)) hdf_ge
  have htail_ge : ∀ a ∈ (tempFileActions fnames) ++
      ((dnames.map CleanupAction.removeTempDir) ++
        (ids.reverse.map CleanupAction.runCleanupFn)), 5 ≤ phaseOf a := by
    intro a ha
    rcases List.mem_append.mp ha with ha | ha
    · rw [hfphase a ha]; omega
    · have := hdf_ge a ha; omega
  refine ⟨pairwise_phase_append _ _ 5 hpair ptail hb htail_ge, ?_, ?_, ?_, ?_⟩
  · intro dir hmem
    rcases List.mem_append.mp hmem with hmem | hmem
    · exact hnc dir hmem
    · rcases List.mem_append.mp hmem with hmem | hmem
      · exact tempFileActions_no_chdir fnames dir hmem
      · rcases List.mem_append.mp hmem with hmem | hmem
        · exact not_mem_map_chdir CleanupAction.removeTempDir _
            (fun x => rfl) dir hmem
        · exact not_mem_map_chdir CleanupAction.runCleanupFn _
            (fun x => rfl) dir hmem
  · rw [List.filterMap_append, List.filterMap_append, List.filterMap_append,
      hfm1, tempFileActions_filterMap_fn,
      filterMap_map_none cleanupFnId CleanupAction.removeTempDir dnames
        (fun x => rfl),
      filterMap_map_some cleanupFnId CleanupAction.runCleanupFn (fun i => i)
        ids.reverse (fun x => rfl)]
    simp
  · rw [List.filterMap_append, List.filterMap_append, List.filterMap_append,
      hfm2, tempFileActions_filterMap_dir,
      filterMap_map_some removedDirName CleanupAction.removeTempDir
        (fun n => n) dnames (fun x => rfl),
      filterMap_map_none removedDirName CleanupAction.runCleanupFn ids.reverse
        (fun x => rfl)]
    simp
  · rw [List.filterMap_append, List.filterMap_append, List.filterMap_append,
      hfm3, tempFileActions_filterMap_closed,
      filterMap_map_none closedFileName CleanupAction.removeTempDir dnames
        (fun x => rfl),
      filterMap_map_none closedFileName CleanupAction.runCleanupFn ids.reverse
        (fun x => rfl)]
    simp

theorem sleep50_phase : phaseOf (CleanupAction.sleepMs 50) = 2 := rfl

theorem sleep1000_phase : phaseOf (CleanupAction.sleepMs 1000) = 4 := rfl

theorem logEscalation_phase : phaseOf CleanupAction.logEscalation = 5 := rfl

/-- shellCleanupTrace, with the scan results written out flat. -/
theorem shellCleanupTrace_eq (run1 run2 run3 : Nat → Bool) (sh : ShellState) :
    shellCleanupTrace run1 run2 run3 sh =
      ((sh.cmds.filter run1).map CleanupAction.signalInt ++
        (if (sh.cmds.filter run1).isEmpty then []
         else CleanupAction.sleepMs 50 ::
           (sh.cmds.filter run2).map CleanupAction.logDidNotDie) ++
        (if (sh.cmds.filter run1).isEmpty = false ∧
            (sh.cmds.filter run2).isEmpty = false then
          CleanupAction.sleepMs 1000 :: CleanupAction.logEscalation ::
            (sh.cmds.filter run3).map CleanupAction.signalKill
         else [])) ++
      (tempFileActions sh.tempFiles ++
        (sh.tempDirs.map CleanupAction.removeTempDir ++
          sh.cleanupFns.reverse.map CleanupAction.runCleanupFn)) := by
  unfold shellCleanupTrace
  by_cases hr1 : (sh.cmds.filter run1).isEmpty
  · simp [hr1, tempFileActions]
  · by_cases hr2 : (sh.cmds.filter run2).isEmpty
    · simp [hr1, hr2, tempFileActions]
    · simp [hr1, hr2, tempFileActions]

/-- C2 (amended): the cleanup actions occur in the fixed order
signal-interrupt, short sleep, log survivors, long sleep, log escalation and
kill, close and remove temp files, remove temp dirs, run deferred callbacks
in last-in-first-out order; the working directory is never restored (no
chdir action occurs). -/
theorem cleanup_fixed_order (run1 run2 run3 : Nat → Bool) (sh : ShellState) :
    (shellCleanupTrace run1 run2 run3 sh).Pairwise
      (fun a b => phaseOf a ≤ phaseOf b) ∧
    (∀ dir, CleanupAction.chdir dir ∉ shellCleanupTrace run1 run2 run3 sh) ∧
    ((shellCleanupTrace run1 run2 run3 sh).filterMap cleanupFnId =
      sh.cleanupFns.reverse) ∧
    ((shellCleanupTrace run1 run2 run3 sh).filterMap removedDirName =
      sh.tempDirs) ∧
    ((shellCleanupTrace run1 run2 run3 sh).filterMap closedFileName =
      sh.tempFiles) := by
  rw [shellCleanupTrace_eq run1 run2 run3 sh]
  have hsig_phase : ∀ a ∈ (sh.cmds.filter run1).map CleanupAction.signalInt,
      phaseOf a = 1 :=
    mem_map_phase _ _ 1 (fun x => rfl)
  have hsig_pair := pairwise_phase_const _ 1 hsig_phase
  have hsig_nc : ∀ dir, CleanupAction.chdir dir ∉
      (sh.cmds.filter run1).map CleanupAction.signalInt :=
    fun dir => not_mem_map_chdir CleanupAction.signalInt _ (fun x => rfl) dir
  have hsig_f1 : ((sh.cmds.filter run1).map CleanupAction.signalInt).filterMap
      cleanupFnId = [] :=
    filterMap_map_none _ _ _ (fun x => rfl)
  have hsig_f2 : ((sh.cmds.filter run1).map CleanupAction.signalInt).filterMap
      removedDirName = [] :=
    filterMap_map_none _ _ _ (fun x => rfl)
  have hsig_f3 : ((sh.cmds.filter run1).map CleanupAction.signalInt).filterMap
      closedFileName = [] :=
    filterMap_map_none _ _ _ (fun x => rfl)
  have hlog_phase : ∀ a ∈ (sh.cmds.filter run2).map CleanupAction.logDidNotDie,
      phaseOf a = 3 :=
    mem_map_phase _ _ 3 (fun x => rfl)
  have hkill_phase : ∀ a ∈ (sh.cmds.filter run3).map CleanupAction.signalKill,
      phaseOf a = 5 :=
    mem_map_phase _ _ 5 (fun x => rfl)
  by_cases hr1 : (sh.cmds.filter run1).isEmpty
  · rw [if_pos hr1, if_neg (by simp [hr1])]
    rw [List.append_nil, List.append_nil]
    exact cleanup_tail_props _ sh.tempFiles sh.tempDirs sh.cleanupFns
      hsig_pair (fun a ha => by rw [hsig_phase a ha]; omega) hsig_nc
      hsig_f1 hsig_f2 hsig_f3
  · rw [if_neg hr1]
    have hlogs12_pair : (CleanupAction.sleepMs 50 ::
        (sh.cmds.filter run2).map CleanupAction.logDidNotDie).Pairwise
        (fun a b => phaseOf a ≤ phaseOf b) := by
      refine List.Pairwise.cons ?_ (pairwise_phase_const _ 3 hlog_phase)
      intro b hb
      rw [sleep50_phase, hlog_phase b hb]
      omega
    have hpre2_pair : ((sh.cmds.filter run1).map CleanupAction.signalInt ++
        (CleanupAction.sleepMs 50 ::
          (sh.cmds.filter run2).map CleanupAction.logDidNotDie)).Pairwise
        (fun a b => phaseOf a ≤ phaseOf b) := by
      refine pairwise_phase_append _ _ 1 hsig_pair hlogs12_pair
        (fun a ha => le_of_eq (hsig_phase a ha)) ?_
      intro a ha
      rcases List.mem_cons.mp ha with ha | ha
      · rw [ha, sleep50_phase]; omega
      · rw [hlog_phase a ha]; omega
    have hpre2_b : ∀ a ∈ (sh.cmds.filter run1).map CleanupAction.signalInt ++
        (CleanupAction.sleepMs 50 ::
          (sh.cmds.filter run2).map CleanupAction.logDidNotDie),
        phaseOf a ≤ 5 := by
      intro a ha
      rcases List.mem_append.mp ha with ha | ha
      · rw [hsig_phase a ha]; omega
      · rcases List.mem_cons.mp ha with ha | ha
        · rw [ha, sleep50_phase]; omega
        · rw [hlog_phase a ha]; omega
    have hpre2_nc : ∀ dir, CleanupAction.chdir dir ∉
        (sh.cmds.filter run1).map CleanupAction.signalInt ++
        (CleanupAction.sleepMs 50 ::
          (sh.cmds.filter run2).map CleanupAction.logDidNotDie) := by
      intro dir hmem
      rcases List.mem_append.mp hmem with hmem | hmem
      · exact hsig_nc dir hmem
      · rcases List.mem_cons.mp hmem with hmem | hmem
        · exact CleanupAction.noConfusion hmem
        · exact not_mem_map_chdir CleanupAction.logDidNotDie _
            (fun x => rfl) dir hmem
    have hpre2_f1 : ((sh.cmds.filter run1).map CleanupAction.signalInt ++
        (CleanupAction.sleepMs 50 ::
          (sh.cmds.filter run2).map CleanupAction.logDidNotDie)).filterMap
        cleanupFnId = [] := by
      rw [List.filterMap_append, hsig_f1, List.filterMap_cons]
      simp [cleanupFnId, filterMap_map_none cleanupFnId
        CleanupAction.logDidNotDie _ (fun x => rfl)]
    have hpre2_f2 : ((sh.cmds.filter run1).map CleanupAction.signalInt ++
        (CleanupAction.sleepMs 50 ::
          (sh.cmds.filter run2).map CleanupAction.logDidNotDie)).filterMap
        removedDirName = [] := by
      rw [List.filterMap_append, hsig_f2, List.filterMap_cons]
      simp [removedDirName, filterMap_map_none removedDirName
        CleanupAction.logDidNotDie _ (fun x => rfl)]
    have hpre2_f3 : ((sh.cmds.filter run1).map CleanupAction.signalInt ++
        (CleanupAction.sleepMs 50 ::
          (sh.cmds.filter run2).map CleanupAction.logDidNotDie)).filterMap
        closedFileName = [] := by
      rw [List.filterMap_append, hsig_f3, List.filterMap_cons]
      simp [closedFileName, filterMap_map_none closedFileName
        CleanupAction.logDidNotDie _ (fun x => rfl)]
    by_cases hr2 : (sh.cmds.filter run2).isEmpty
    · rw [if_neg (by simp [hr2]), List.append_nil]
      exact cleanup_tail_props _ sh.tempFiles sh.tempDirs sh.cleanupFns
        hpre2_pair hpre2_b hpre2_nc hpre2_f1 hpre2_f2 hpre2_f3
    · rw [if_pos ⟨by simp [hr1], by simp [hr2]⟩]
      have hph3_pair : (CleanupAction.sleepMs 1000 ::
          CleanupAction.logEscalation ::
          (sh.cmds.filter run3).map CleanupAction.signalKill).Pairwise
          (fun a b => phaseOf a ≤ phaseOf b) := by
        refine List.Pairwise.cons ?_ (List.Pairwise.cons ?_
          (pairwise_phase_const _ 5 hkill_phase))
        · intro b hb
          rw [sleep1000_phase]
          rcases List.mem_cons.mp hb with hb | hb
          · rw [hb, logEscalation_phase]; omega
          · rw [hkill_phase b hb]; omega
        · intro b hb
          rw [hkill_phase b hb, logEscalation_phase]
      have hph3_mem : ∀ a ∈ CleanupAction.sleepMs 1000 ::
          CleanupAction.logEscalation ::
          (sh.cmds.filter run3).map CleanupAction.signalKill,
          4 ≤ phaseOf a ∧ phaseOf a ≤ 5 := by
        intro a ha
        rcases List.mem_cons.mp ha with ha | ha
        · rw [ha, sleep1000_phase]; omega
        · rcases List.mem_cons.mp ha with ha | ha
          · rw [ha, logEscalation_phase]; omega
          · rw [hkill_phase a ha]; omega
      have hpre3_pair : (((sh.cmds.filter run1).map CleanupAction.signalInt ++
          (CleanupAction.sleepMs 50 ::
            (sh.cmds.filter run2).map CleanupAction.logDidNotDie)) ++
          (CleanupAction.sleepMs 1000 :: CleanupAction.logEscalation ::
            (sh.cmds.filter run3).map CleanupAction.signalKill)).Pairwise
          (fun a b => phaseOf a ≤ phaseOf b) := by
        refine pairwise_phase_append _ _ 3 hpre2_pair hph3_pair ?_ ?_
        · intro a ha
          have := hpre2_b a ha
          rcases List.mem_append.mp ha with ha | ha
          · rw [hsig_phase a ha]; omega
          · rcases List.mem_cons.mp ha with ha | ha
            · rw [ha, sleep50_phase]; omega
            · rw [hlog_phase a ha]
        · intro a ha
          have := hph3_mem a ha
          omega
      have hpre3_b : ∀ a ∈ ((sh.cmds.filter run1).map CleanupAction.signalInt ++
          (CleanupAction.sleepMs 50 ::
            (sh.cmds.filter run2).map CleanupAction.logDidNotDie)) ++
          (CleanupAction.sleepMs 1000 :: CleanupAction.logEscalation ::
            (sh.cmds.filter run3).map CleanupAction.signalKill),
          phaseOf a ≤ 5 := by
        intro a ha
        rcases List.mem_append.mp ha with ha | ha
        · exact hpre2_b a ha
        · exact (hph3_mem a ha).2
      have hpre3_nc : ∀ dir, CleanupAction.chdir dir ∉
          ((sh.cmds.filter run1).map CleanupAction.signalInt ++
          (CleanupAction.sleepMs 50 ::
            (sh.cmds.filter run2).map CleanupAction.logDidNotDie)) ++
          (CleanupAction.sleepMs 1000 :: CleanupAction.logEscalation ::
            (sh.cmds.filter run3).map CleanupAction.signalKill) := by
        intro dir hmem
        rcases List.mem_append.mp hmem with hmem | hmem
        · exact hpre2_nc dir hmem
        · rcases List.mem_cons.mp hmem with hmem | hmem
          · exact CleanupAction.noConfusion hmem
          · rcases List.mem_cons.mp hmem with hmem | hmem
            · exact CleanupAction.noConfusion hmem
            · exact not_mem_map_chdir CleanupAction.signalKill _
                (fun x => rfl) dir hmem
      have hpre3_f1 : (((sh.cmds.filter run1).map CleanupAction.signalInt ++
          (CleanupAction.sleepMs 50 ::
            (sh.cmds.filter run2).map CleanupAction.logDidNotDie)) ++
          (CleanupAction.sleepMs 1000 :: CleanupAction.logEscalation ::
            (sh.cmds.filter run3).map CleanupAction.signalKill)).filterMap
          cleanupFnId = [] := by
        rw [List.filterMap_append, hpre2_f1]
        simp [cleanupFnId, filterMap_map_none cleanupFnId
          CleanupAction.signalKill _ (fun x => rfl)]
      have hpre3_f2 : (((sh.cmds.filter run1).map CleanupAction.signalInt ++
          (CleanupAction.sleepMs 50 ::
            (sh.cmds.filter run2).map CleanupAction.logDidNotDie)) ++
          (CleanupAction.sleepMs 1000 :: CleanupAction.logEscalation ::
            (sh.cmds.filter run3).map CleanupAction.signalKill)).filterMap
          removedDirName = [] := by
        rw [List.filterMap_append, hpre2_f2]
        simp [removedDirName, filterMap_map_none removedDirName
          CleanupAction.signalKill _ (fun x => rfl)]
      have hpre3_f3 : (((sh.cmds.filter run1).map CleanupAction.signalInt ++
          (CleanupAction.sleepMs 50 ::
            (sh.cmds.filter run2).map CleanupAction.logDidNotDie)) ++
          (CleanupAction.sleepMs 1000 :: CleanupAction.logEscalation ::
            (sh.cmds.filter run3).map CleanupAction.signalKill)).filterMap
          closedFileName = [] := by
        rw [List.filterMap_append, hpre2_f3]
        simp [closedFileName, filterMap_map_none closedFileName
          CleanupAction.signalKill _ (fun x => rfl)]
      exact cleanup_tail_props _ sh.tempFiles sh.tempDirs sh.cleanupFns
        hpre3_pair hpre3_b hpre3_nc hpre3_f1 hpre3_f2 hpre3_f3

/-- C2 counterexample: a shell with a non-empty directory stack; cleanup
performs its whole trace without ever restoring the working directory (no
chdir action occurs). -/
theorem cleanup_no_dir_restore :
    shellCleanupTrace (fun _ => true) (fun _ => false) (fun _ => false)
        ⟨false, [7], ["f"], ["d"], ["/home"], [0, 1]⟩ =
      [CleanupAction.signalInt 7, CleanupAction.sleepMs 50,
       CleanupAction.closeTempFile "f", CleanupAction.removeTempFile "f",
       CleanupAction.removeTempDir "d", CleanupAction.runCleanupFn 1,
       CleanupAction.runCleanupFn 0] ∧
    (∀ dir, CleanupAction.chdir dir ∉
      shellCleanupTrace (fun _ => true) (fun _ => false) (fun _ => false)
        ⟨false, [7], ["f"], ["d"], ["/home"], [0, 1]⟩) ∧
    (⟨false, [7], ["f"], ["d"], ["/home"], [0, 1]⟩ : ShellState).dirStack ≠
      [] := by
  have h1 : shellCleanupTrace (fun _ => true) (fun _ => false) (fun _ => false)
      ⟨false, [7], ["f"], ["d"], ["/home"], [0, 1]⟩ =
      [CleanupAction.signalInt 7, CleanupAction.sleepMs 50,
       CleanupAction.closeTempFile "f", CleanupAction.removeTempFile "f",
       CleanupAction.removeTempDir "d", CleanupAction.runCleanupFn 1,
       CleanupAction.runCleanupFn 0] := by rfl
  refine ⟨h1, ?_, by simp⟩
  intro dir
  rw [h1]
  simp

/-! ## The invocation codec (part_000 lines 661-683)

encInvocation gob-encodes the (name, args) pair and hex-encodes the bytes so
the token can travel in an env var; decInvocation reverses both layers.
encoding/gob and encoding/hex are Go standard-library packages, not part of
this repository, so gob is modelled as the self-describing, length-prefixed
tagged encoding its documentation specifies, over the basic value universe
used here. -/

/-- Modelled from the spec: the universe of gob-encodable argument values
carried by an invocation (Go's encoding/gob, a standard-library package,
handles the basic types out of the box). -/
inductive GobValue
  | vInt (i : Int)
  | vBool (b : Bool)
  | vString (s : String)
  deriving DecidableEq

/-- A natural number as base-255 digits terminated by the byte 255. -/
def encNatBytes (n : Nat) : List Nat := Nat.digits 255 n ++ [255]

/-- Read one encNatBytes-encoded number, returning it and the leftover. -/
def decNatBytes (bs : List Nat) : Option (Nat × List Nat) :=
  match bs.dropWhile (fun b => b != 255) with
  | 255 :: rest => some (Nat.ofDigits 255 (bs.takeWhile (fun b => b != 255)), rest)
  | _ => none

theorem takeWhile_append_all (p : Nat → Bool) (l1 l2 : List Nat)
    (h : ∀ x ∈ l1, p x = true) :
    (l1 ++ l2).takeWhile p = l1 ++ l2.takeWhile p := by
  induction l1 with
  | nil => simp
  | cons x rest ih =>
    rw [List.cons_append, List.takeWhile_cons, h x (by simp),
      ih (fun y hy => h y (List.mem_cons_of_mem _ hy))]
    rfl

theorem dropWhile_append_all (p : Nat → Bool) (l1 l2 : List Nat)
    (h : ∀ x ∈ l1, p x = true) :
    (l1 ++ l2).dropWhile p = l2.dropWhile p := by
  induction l1 with
  | nil => simp
  | cons x rest ih =>
    rw [List.cons_append, List.dropWhile_cons, h x (by simp),
      ih (fun y hy => h y (List.mem_cons_of_mem _ hy))]
    rfl

theorem digits255_ne (n : Nat) : ∀ x ∈ Nat.digits 255 n, (x != 255) = true := by
  intro x hx
  have := Nat.digits_lt_base (by omega) hx
  exact bne_iff_ne.mpr (by omega)

/-- Reading back an encoded number recovers it and the leftover bytes. -/
theorem decNatBytes_enc (n : Nat) (rest : List Nat) :
    decNatBytes (encNatBytes n ++ rest) = some (n, rest) := by
  unfold decNatBytes encNatBytes
  rw [List.append_assoc, List.cons_append,
    dropWhile_append_all _ _ _ (digits255_ne n),
    takeWhile_append_all _ _ _ (digits255_ne n)]
  rw [List.dropWhile_cons, List.takeWhile_cons]
  norm_num
  exact Nat.ofDigits_digits 255 n

/-- Every byte an encoded number produces fits in one byte. -/
theorem encNatBytes_lt (n : Nat) : ∀ b ∈ encNatBytes n, b < 256 := by
  intro b hb
  unfold encNatBytes at hb
  rcases List.mem_append.mp hb with hb | hb
  · have := Nat.digits_lt_base (by omega) hb
    omega
  · rw [List.mem_singleton] at hb
    omega

/-- A signed integer: a sign byte then the magnitude. -/
def encIntBytes (i : Int) : List Nat :=
  if 0 ≤ i then 0 :: encNatBytes i.toNat else 1 :: encNatBytes (-i).toNat

def decIntBytes : List Nat → Option (Int × List Nat)
  | 0 :: bs => (decNatBytes bs).map (fun p => ((p.1 : Int), p.2))
  | 1 :: bs => (decNatBytes bs).map (fun p => (-(p.1 : Int), p.2))
  | _ => none

theorem decIntBytes_enc (i : Int) (rest : List Nat) :
    decIntBytes (encIntBytes i ++ rest) = some (i, rest) := by
  unfold encIntBytes
  by_cases hi : 0 ≤ i
  · rw [if_pos hi, List.cons_append]
    show (decNatBytes (encNatBytes i.toNat ++ rest)).map _ = _
    rw [decNatBytes_enc]
    simp [Int.toNat_of_nonneg hi]
  · rw [if_neg hi, List.cons_append]
    show (decNatBytes (encNatBytes (-i).toNat ++ rest)).map _ = _
    rw [decNatBytes_enc]
    have : ((-i).toNat : Int) = -i := Int.toNat_of_nonneg (by omega)
    simp [this]

theorem encIntBytes_lt (i : Int) : ∀ b ∈ encIntBytes i, b < 256 := by
  intro b hb
  unfold encIntBytes at hb
  by_cases hi : 0 ≤ i
  · rw [if_pos hi] at hb
    rcases List.mem_cons.mp hb with hb | hb
    · omega
    · exact encNatBytes_lt _ b hb
  · rw [if_neg hi] at hb
    rcases List.mem_cons.mp hb with hb | hb
    · omega
    · exact encNatBytes_lt _ b hb

/-- A string: its length, then each character codepoint. -/
def encStringBytes (s : String) : List Nat :=
  encNatBytes s.data.length ++
    (s.data.map (fun ch => encNatBytes ch.toNat)).flatten

def decCharsBytes : Nat → List Nat → Option (List Char × List Nat)
  | 0, bs => some ([], bs)
  | n + 1, bs =>
    match decNatBytes bs with
    | none => none
    | some (c, bs1) =>
      match decCharsBytes n bs1 with
      | none => none
      | some (cs, bs2) => some (Char.ofNat c :: cs, bs2)

def decStringBytes (bs : List Nat) : Option (String × List Nat) :=
  match decNatBytes bs with
  | none => none
  | some (n, bs1) =>
    match decCharsBytes n bs1 with
    | none => none
    | some (cs, bs2) => some (String.mk cs, bs2)

theorem decCharsBytes_enc (cs : List Char) (rest : List Nat) :
    decCharsBytes cs.length
      ((cs.map (fun ch => encNatBytes ch.toNat)).flatten ++ rest) =
      some (cs, rest) := by
  induction cs generalizing rest with
  | nil => rfl
  | cons ch cs ih =>
    rw [List.map_cons, List.flatten_cons, List.length_cons, List.append_assoc]
    unfold decCharsBytes
    rw [decNatBytes_enc]
    dsimp only
    rw [ih rest]
    dsimp only
    rw [Char.ofNat_toNat]

theorem decStringBytes_enc (s : String) (rest : List Nat) :
    decStringBytes (encStringBytes s ++ rest) = some (s, rest) := by
  unfold decStringBytes encStringBytes
  rw [List.append_assoc, decNatBytes_enc]
  dsimp only
  rw [decCharsBytes_enc]

theorem encStringBytes_lt (s : String) : ∀ b ∈ encStringBytes s, b < 256 := by
  intro b hb
  unfold encStringBytes at hb
  rcases List.mem_append.mp hb with hb | hb
  · exact encNatBytes_lt _ b hb
  · obtain ⟨l, hl, hbl⟩ := List.mem_flatten.mp hb
    obtain ⟨ch, _, hch⟩ := List.mem_map.mp hl
    rw [← hch] at hbl
    exact encNatBytes_lt _ b hbl

/-- One tagged value. -/
def encValueBytes : GobValue → List Nat
  | .vInt i => 0 :: encIntBytes i
  | .vBool b => 1 :: [if b then 1 else 0]
  | .vString s => 2 :: encStringBytes s

def decValueBytes : List Nat → Option (GobValue × List Nat)
  | 0 :: bs => (decIntBytes bs).map (fun p => (.vInt p.1, p.2))
  | 1 :: 0 :: bs => some (.vBool false, bs)
  | 1 :: 1 :: bs => some (.vBool true, bs)
  | 2 :: bs => (decStringBytes bs).map (fun p => (.vString p.1, p.2))
  | _ => none

theorem decValueBytes_enc (v : GobValue) (rest : List Nat) :
    decValueBytes (encValueBytes v ++ rest) = some (v, rest) := by
  cases v with
  | vInt i =>
    show (decIntBytes (encIntBytes i ++ rest)).map _ = _
    rw [decIntBytes_enc]
    rfl
  | vBool b =>
    cases b <;> rfl
  | vString s =>
    show (decStringBytes (encStringBytes s ++ rest)).map _ = _
    rw [decStringBytes_enc]
    rfl

theorem encValueBytes_lt (v : GobValue) : ∀ b ∈ encValueBytes v, b < 256 := by
  intro b hb
  cases v with
  | vInt i =>
    rcases List.mem_cons.mp hb with hb | hb
    · omega
    · exact encIntBytes_lt i b hb
  | vBool bo =>
    rcases List.mem_cons.mp hb with hb | hb
    · omega
    · rw [List.mem_singleton] at hb
      cases bo <;> simp at hb <;> omega
  | vString s =>
    rcases List.mem_cons.mp hb with hb | hb
    · omega
    · exact encStringBytes_lt s b hb

/-- The argument list: a count then each tagged value. -/
def encValuesBytes (vs : List GobValue) : List Nat :=
  encNatBytes vs.length ++ (vs.map encValueBytes).flatten

def decValuesN : Nat → List Nat → Option (List GobValue × List Nat)
  | 0, bs => some ([], bs)
  | n + 1, bs =>
    match decValueBytes bs with
    | none => none
    | some (v, bs1) =>
      match decValuesN n bs1 with
      | none => none
      | some (vs, bs2) => some (v :: vs, bs2)

def decValuesBytes (bs : List Nat) : Option (List GobValue × List Nat) :=
  match decNatBytes bs with
  | none => none
  | some (n, bs1) => decValuesN n bs1

theorem decValuesN_enc (vs : List GobValue) (rest : List Nat) :
    decValuesN vs.length ((vs.map encValueBytes).flatten ++ rest) =
      some (vs, rest) := by
  induction vs generalizing rest with
  | nil => rfl
  | cons v vs ih =>
    rw [List.map_cons, List.flatten_cons, List.length_cons, List.append_assoc]
    unfold decValuesN
    rw [decValueBytes_enc]
    dsimp only
    rw [ih rest]

theorem decValuesBytes_enc (vs : List GobValue) (rest : List Nat) :
    decValuesBytes (encValuesBytes vs ++ rest) = some (vs, rest) := by
  unfold decValuesBytes encValuesBytes
  rw [List.append_assoc, decNatBytes_enc]
  dsimp only
  rw [decValuesN_enc]

theorem encValuesBytes_lt (vs : List GobValue) :
    ∀ b ∈ encValuesBytes vs, b < 256 := by
  intro b hb
  unfold encValuesBytes at hb
  rcases List.mem_append.mp hb with hb | hb
  · exact encNatBytes_lt _ b hb
  · obtain ⟨l, hl, hbl⟩ := List.mem_flatten.mp hb
    obtain ⟨v, _, hv⟩ := List.mem_map.mp hl
    rw [← hv] at hbl
    exact encValueBytes_lt v b hbl

/-- The gob layer of encInvocation: name then args, self-describing. -/
def gobEncInvocation (name : String) (args : List GobValue) : List Nat :=
  encStringBytes name ++ encValuesBytes args

def gobDecInvocation (bs : List Nat) :
    Option (String × List GobValue × List Nat) :=
  match decStringBytes bs with
  | none => none
  | some (name, bs1) =>
    match decValuesBytes bs1 with
    | none => none
    | some (args, bs2) => some (name, args, bs2)

theorem gobDecInvocation_enc (name : String) (args : List GobValue) :
    gobDecInvocation (gobEncInvocation name args) = some (name, args, []) := by
  unfold gobDecInvocation gobEncInvocation
  rw [decStringBytes_enc]
  dsimp only
  rw [← List.append_nil (encValuesBytes args), decValuesBytes_enc]

theorem gobEncInvocation_lt (name : String) (args : List GobValue) :
    ∀ b ∈ gobEncInvocation name args, b < 256 := by
  intro b hb
  rcases List.mem_append.mp hb with hb | hb
  · exact encStringBytes_lt name b hb
  · exact encValuesBytes_lt args b hb

/-- The hex layer (Go's encoding/hex): two lowercase hex digits per byte. -/
def hexDigitChar (n : Nat) : Char :=
  if n < 10 then Char.ofNat (48 + n) else Char.ofNat (87 + n)

def hexVal (c : Char) : Option Nat :=
  if 48 ≤ c.toNat ∧ c.toNat ≤ 57 then some (c.toNat - 48)
  else if 97 ≤ c.toNat ∧ c.toNat ≤ 102 then some (c.toNat - 87)
  else none

theorem hexVal_hexDigitChar : ∀ d < 16, hexVal (hexDigitChar d) = some d := by
  decide

def hexEncode (bs : List Nat) : List Char :=
  (bs.map (fun b => [hexDigitChar (b / 16), hexDigitChar (b % 16)])).flatten

def hexDecode : List Char → Option (List Nat)
  | [] => some []
  | [_] => none
  | c1 :: c2 :: rest =>
    match hexVal c1, hexVal c2, hexDecode rest with
    | some h, some l, some bs => some ((16 * h + l) :: bs)
    | _, _, _ => none

theorem hexDecode_enc (bs : List Nat) (h : ∀ b ∈ bs, b < 256) :
    hexDecode (hexEncode bs) = some bs := by
  induction bs with
  | nil => rfl
  | cons b rest ih =>
    have hb : b < 256 := h b (by simp)
    have h1 : b / 16 < 16 := by omega
    have h2 : b % 16 < 16 := by omega
    rw [hexEncode, List.map_cons, List.flatten_cons]
    show hexDecode (hexDigitChar (b / 16) :: hexDigitChar (b % 16) ::
      hexEncode rest) = _
    unfold hexDecode
    rw [hexVal_hexDigitChar _ h1, hexVal_hexDigitChar _ h2,
      ih (fun x hx => h x (List.mem_cons_of_mem _ hx))]
    dsimp only
    congr 2
    omega

/-- Modelled from the spec: the function registry (Register and Call are part
of the repository but live outside src/).  Call looks the function up by name
(unknown name is an error) and invokes it positionally. -/
def lookupFn : List (String × (List GobValue → Except GoErr GobValue)) →
    String → Option (List GobValue → Except GoErr GobValue)
  | [], _ => none
  | (k, f) :: rest, name => if k = name then some f else lookupFn rest name

/-- Modelled from the spec: Call(name, args...). -/
def callFn (reg : List (String × (List GobValue → Except GoErr GobValue)))
    (name : String) (args : List GobValue) : Except GoErr GobValue :=
  match lookupFn reg name with
  | none => .error (.unknownFunction name)
  | some f => f args

/-- encInvocation from part_000: gob-encode the invocation, then hex-encode
the bytes so that the result can be used as an env var value. -/
def encInvocation (name : String) (args : List GobValue) : String :=
  String.mk (hexEncode (gobEncInvocation name args))

/-- decInvocation from part_000: hex-decode, then gob-decode. -/
def decInvocation (s : String) : Except String (String × List GobValue) :=
  match hexDecode s.data with
  | none => .error "failed to decode invocation"
  | some bs =>
    match gobDecInvocation bs with
    | none => .error "failed to decode invocation"
    | some (name, args, _) => .ok (name, args)

/-- C8: the invocation codec round-trips — decoding an encoded invocation
yields exactly the original name and argument list with no error — so
dispatching the decoded invocation through the registry is observably
equivalent to calling the registered function directly. -/
theorem invocation_roundtrip (name : String) (args : List GobValue)
    (reg : List (String × (List GobValue → Except GoErr GobValue))) :
    decInvocation (encInvocation name args) = .ok (name, args) ∧
    (match decInvocation (encInvocation name args) with
     | .ok p => callFn reg p.1 p.2 = callFn reg name args
     | .error _ => False) := by
  have hrt : decInvocation (encInvocation name args) = .ok (name, args) := by
    unfold decInvocation encInvocation
    show (match hexDecode (hexEncode (gobEncInvocation name args)) with
      | none => Except.error "failed to decode invocation"
      | some bs =>
        match gobDecInvocation bs with
        | none => Except.error "failed to decode invocation"
        | some (name, args, _) => Except.ok (name, args)) = _
    rw [hexDecode_enc _ (gobEncInvocation_lt name args)]
    dsimp only
    rw [gobDecInvocation_enc]
  refine ⟨hrt, ?_⟩
  rw [hrt]

/-- Witness for recvWriter_frame: the line "hi" plus an unfinished "#!"
leave the command state untouched for any parser. -/
theorem recvWriter_frame_witness :
    ∃ w2, writeBytes (fun _ => .error "")
        (initRecvState initCmdMsgState)
        ((([['h', 'i']] : List (List Char)).map
          (fun l => l ++ ['\n'])).flatten ++ ['#', '!']) = .ok w2 ∧
      w2.cmd = initCmdMsgState :=
  recvWriter_frame (fun _ => .error "") initCmdMsgState [['h', 'i']]
    ['#', '!'] (by decide) (by decide)

end Gosh
